import Mathlib

/-!
Verification of the CYBER_repinning CID codec, collection builder, pin
verification, duplicate analysis, duplicate cleanup and migration
reconciliation, as shallow Lean embeddings of the Python source
(src/utils.py and src/app.py).

Bytes are modelled as natural numbers below 256, byte strings as
List Nat, Python dicts as insertion-ordered association lists.
Network effects are modelled by passing the remote pin inventory as an
explicit list; display-only progress strings are omitted.
-/

namespace CyberRepin

/-- Lookup in an insertion-ordered association list (Python dict lookup). -/
def alookup {β : Type} : List (String × β) → String → Option β
  | [], _ => none
  | (k, v) :: t, c => if k = c then some v else alookup t c

/-- Auxiliary for first-occurrence deduplication with an accumulator of
already-seen keys. -/
def dedupAux (seen : List String) : List String → List String
  | [] => []
  | x :: xs => if x ∈ seen then dedupAux seen xs else x :: dedupAux (x :: seen) xs

/-- First-occurrence deduplication: the distinct elements of a list in order
of first appearance (the key set of a Python dict built by insertion). -/
def dedupKeep (l : List String) : List String := dedupAux [] l

/-! ### RFC 4648 base32 (lowercase, unpadded), as used by the Python
multibase library for the base32 multibase encoding. -/

/-- The lowercase RFC 4648 base32 alphabet, indexed by 5-bit value. -/
def b32charOfVal : Nat → Char
  | 0 => 'a' | 1 => 'b' | 2 => 'c' | 3 => 'd' | 4 => 'e' | 5 => 'f' | 6 => 'g'
  | 7 => 'h' | 8 => 'i' | 9 => 'j' | 10 => 'k' | 11 => 'l' | 12 => 'm'
  | 13 => 'n' | 14 => 'o' | 15 => 'p' | 16 => 'q' | 17 => 'r' | 18 => 's'
  | 19 => 't' | 20 => 'u' | 21 => 'v' | 22 => 'w' | 23 => 'x' | 24 => 'y'
  | 25 => 'z' | 26 => '2' | 27 => '3' | 28 => '4' | 29 => '5' | 30 => '6'
  | 31 => '7' | _ => 'a'

/-- Inverse of the base32 alphabet table. -/
def b32valOfChar : Char → Option Nat
  | 'a' => some 0 | 'b' => some 1 | 'c' => some 2 | 'd' => some 3
  | 'e' => some 4 | 'f' => some 5 | 'g' => some 6 | 'h' => some 7
  | 'i' => some 8 | 'j' => some 9 | 'k' => some 10 | 'l' => some 11
  | 'm' => some 12 | 'n' => some 13 | 'o' => some 14 | 'p' => some 15
  | 'q' => some 16 | 'r' => some 17 | 's' => some 18 | 't' => some 19
  | 'u' => some 20 | 'v' => some 21 | 'w' => some 22 | 'x' => some 23
  | 'y' => some 24 | 'z' => some 25 | '2' => some 26 | '3' => some 27
  | '4' => some 28 | '5' => some 29 | '6' => some 30 | '7' => some 31
  | _ => none

/-- Split a byte string into the 5-bit groups of its base32 encoding,
zero-padding the trailing partial group as RFC 4648 prescribes. -/
def quintetsOfBytes : List Nat → List Nat
  | [] => []
  | [a] => [a / 8, a % 8 * 4]
  | [a, b] => [a / 8, a % 8 * 4 + b / 64, b / 2 % 32, b % 2 * 16]
  | [a, b, c] =>
    [a / 8, a % 8 * 4 + b / 64, b / 2 % 32, b % 2 * 16 + c / 16, c % 16 * 2]
  | [a, b, c, d] =>
    [a / 8, a % 8 * 4 + b / 64, b / 2 % 32, b % 2 * 16 + c / 16,
     c % 16 * 2 + d / 128, d / 4 % 32, d % 4 * 8]
  | a :: b :: c :: d :: e :: rest =>
    a / 8 :: (a % 8 * 4 + b / 64) :: (b / 2 % 32) :: (b % 2 * 16 + c / 16) ::
    (c % 16 * 2 + d / 128) :: (d / 4 % 32) :: (d % 4 * 8 + e / 32) :: (e % 32)
    :: quintetsOfBytes rest

/-- Reassemble the bytes encoded by a list of 5-bit groups, discarding the
trailing bits that do not fill a whole byte (standard base32 decoding). -/
def bytesOfQuintets : List Nat → List Nat
  | [] => []
  | [_] => []
  | [q0, q1] => [q0 * 8 + q1 / 4]
  | [q0, q1, _] => [q0 * 8 + q1 / 4]
  | [q0, q1, q2, q3] => [q0 * 8 + q1 / 4, q1 % 4 * 64 + q2 * 2 + q3 / 16]
  | [q0, q1, q2, q3, q4] =>
    [q0 * 8 + q1 / 4, q1 % 4 * 64 + q2 * 2 + q3 / 16, q3 % 16 * 16 + q4 / 2]
  | [q0, q1, q2, q3, q4, _] =>
    [q0 * 8 + q1 / 4, q1 % 4 * 64 + q2 * 2 + q3 / 16, q3 % 16 * 16 + q4 / 2]
  | [q0, q1, q2, q3, q4, q5, q6] =>
    [q0 * 8 + q1 / 4, q1 % 4 * 64 + q2 * 2 + q3 / 16, q3 % 16 * 16 + q4 / 2,
     q4 % 2 * 128 + q5 * 4 + q6 / 8]
  | q0 :: q1 :: q2 :: q3 :: q4 :: q5 :: q6 :: q7 :: rest =>
    (q0 * 8 + q1 / 4) :: (q1 % 4 * 64 + q2 * 2 + q3 / 16) ::
    (q3 % 16 * 16 + q4 / 2) :: (q4 % 2 * 128 + q5 * 4 + q6 / 8) ::
    (q6 % 8 * 32 + q7) :: bytesOfQuintets rest

/-- Parse a list of base32 characters to their 5-bit values; any character
outside the alphabet makes the whole parse fail. -/
def b32valsOfChars : List Char → Option (List Nat)
  | [] => some []
  | c :: cs =>
    match b32valOfChar c, b32valsOfChars cs with
    | some v, some vs => some (v :: vs)
    | _, _ => none

/-- Multibase base32 encoding of a byte string: the multibase prefix b
followed by unpadded lowercase RFC 4648 base32, exactly what the Python
multibase.encode base32 call produces. -/
def multibaseB32 (bs : List Nat) : String :=
  ⟨'b' :: (quintetsOfBytes bs).map b32charOfVal⟩

/-- Standard multibase base32 decoding: strip the b prefix, map characters
back to 5-bit groups, reassemble bytes. -/
def decodeMultibaseB32 (s : String) : Option (List Nat) :=
  match s.data with
  | 'b' :: cs =>
    match b32valsOfChars cs with
    | some vs => some (bytesOfQuintets vs)
    | none => none
  | _ => none

/-! ### Base58 (bitcoin alphabet), as used by the Python base58 library. -/

/-- The bitcoin base58 alphabet, indexed by digit value. -/
def b58charOfDigit : Nat → Char
  | 0 => '1' | 1 => '2' | 2 => '3' | 3 => '4' | 4 => '5' | 5 => '6'
  | 6 => '7' | 7 => '8' | 8 => '9' | 9 => 'A' | 10 => 'B' | 11 => 'C'
  | 12 => 'D' | 13 => 'E' | 14 => 'F' | 15 => 'G' | 16 => 'H' | 17 => 'J'
  | 18 => 'K' | 19 => 'L' | 20 => 'M' | 21 => 'N' | 22 => 'P' | 23 => 'Q'
  | 24 => 'R' | 25 => 'S' | 26 => 'T' | 27 => 'U' | 28 => 'V' | 29 => 'W'
  | 30 => 'X' | 31 => 'Y' | 32 => 'Z' | 33 => 'a' | 34 => 'b' | 35 => 'c'
  | 36 => 'd' | 37 => 'e' | 38 => 'f' | 39 => 'g' | 40 => 'h' | 41 => 'i'
  | 42 => 'j' | 43 => 'k' | 44 => 'm' | 45 => 'n' | 46 => 'o' | 47 => 'p'
  | 48 => 'q' | 49 => 'r' | 50 => 's' | 51 => 't' | 52 => 'u' | 53 => 'v'
  | 54 => 'w' | 55 => 'x' | 56 => 'y' | 57 => 'z' | _ => '1'

/-- Inverse of the base58 alphabet table. -/
def b58digitOfChar : Char → Option Nat
  | '1' => some 0 | '2' => some 1 | '3' => some 2 | '4' => some 3
  | '5' => some 4 | '6' => some 5 | '7' => some 6 | '8' => some 7
  | '9' => some 8 | 'A' => some 9 | 'B' => some 10 | 'C' => some 11
  | 'D' => some 12 | 'E' => some 13 | 'F' => some 14 | 'G' => some 15
  | 'H' => some 16 | 'J' => some 17 | 'K' => some 18 | 'L' => some 19
  | 'M' => some 20 | 'N' => some 21 | 'P' => some 22 | 'Q' => some 23
  | 'R' => some 24 | 'S' => some 25 | 'T' => some 26 | 'U' => some 27
  | 'V' => some 28 | 'W' => some 29 | 'X' => some 30 | 'Y' => some 31
  | 'Z' => some 32 | 'a' => some 33 | 'b' => some 34 | 'c' => some 35
  | 'd' => some 36 | 'e' => some 37 | 'f' => some 38 | 'g' => some 39
  | 'h' => some 40 | 'i' => some 41 | 'j' => some 42 | 'k' => some 43
  | 'm' => some 44 | 'n' => some 45 | 'o' => some 46 | 'p' => some 47
  | 'q' => some 48 | 'r' => some 49 | 's' => some 50 | 't' => some 51
  | 'u' => some 52 | 'v' => some 53 | 'w' => some 54 | 'x' => some 55
  | 'y' => some 56 | 'z' => some 57 | _ => none

/-- Value of a digit string read in the given base, most significant first. -/
def natValue (base : Nat) (ds : List Nat) : Nat :=
  ds.foldl (fun acc d => acc * base + d) 0

/-- Base-b digit expansion of a number, most significant first, no leading
zero digit; the fuel argument only needs to exceed the digit count. -/
def natDigitsAux (base : Nat) : Nat → Nat → List Nat
  | 0, _ => []
  | fuel + 1, n =>
    if n = 0 then [] else natDigitsAux base fuel (n / base) ++ [n % base]

/-- Byte digits (base 256, most significant first) of a number, no leading
zero byte. -/
def natBytesAux (fuel n : Nat) : List Nat := natDigitsAux 256 fuel n

/-- Parse a list of base58 characters to digit values. -/
def b58charsToDigits : List Char → Option (List Nat)
  | [] => some []
  | c :: cs =>
    match b58digitOfChar c, b58charsToDigits cs with
    | some v, some vs => some (v :: vs)
    | _, _ => none

/-- Python base58.b58encode: each leading zero byte becomes the character 1,
the remaining bytes are read as a big-endian number written in base 58. -/
def b58encode (bs : List Nat) : String :=
  ⟨List.replicate (bs.takeWhile (fun b => b == 0)).length '1'
    ++ (natDigitsAux 58 64 (natValue 256 bs)).map b58charOfDigit⟩

/-- Standard base58 decoding back to bytes: leading 1 characters become
zero bytes, the rest is read as a base-58 number and written out in
big-endian bytes with no leading zero. -/
def b58decodeBytes (s : String) : Option (List Nat) :=
  match b58charsToDigits s.data with
  | some ds =>
    some (List.replicate (s.data.takeWhile (fun c => c == '1')).length 0
      ++ natBytesAux 44 (natValue 58 ds))
  | none => none

/-! ### ARC-19 CID reconstruction (src/utils.py, extract_arc19_cid).

The template parsing and Algorand address decoding are effectful and
library-backed; the CID construction from the decoded 32-byte digest
(utils.py lines 247-264, repeated verbatim in the fallback branch at
lines 281-298) is embedded here exactly. -/

/-- The codec byte map of extract_arc19_cid:
raw 0x55, dag-pb 0x70, dag-cbor 0x71, default 0x55. -/
def cidCodecByte (codec : String) : Nat :=
  if codec = "raw" then 0x55
  else if codec = "dag-pb" then 0x70
  else if codec = "dag-cbor" then 0x71
  else 0x55

/-- CID construction of extract_arc19_cid from the decoded address bytes:
for version 1 the multihash is framed 0x12 0x20 regardless of the declared
hash type (both branches of the source's if are identical), the CID bytes
are 0x01, codec byte, multihash, encoded as multibase base32; for any
other version the decoded bytes are base58-encoded directly. -/
def extract_arc19_cid_construct (version : Nat) (codec hashType : String)
    (decoded : List Nat) : String :=
  if version = 1 then
    let multihash :=
      if hashType = "sha2-256" then 0x12 :: 0x20 :: decoded
      else 0x12 :: 0x20 :: decoded
    let cidBytes := 0x01 :: cidCodecByte codec :: multihash
    multibaseB32 cidBytes
  else
    b58encode decoded

/-- Standard CIDv1 parsing of a multibase base32 string: the byte form must
be the version byte 0x01, a codec byte, then a 0x12 0x20 sha2-256 multihash
whose 32-byte digest is returned with the codec byte. -/
def decodeCidV1 (s : String) : Option (Nat × List Nat) :=
  match decodeMultibaseB32 s with
  | some (v :: codec :: h1 :: h2 :: digest) =>
    if v = 1 ∧ h1 = 0x12 ∧ h2 = 0x20 ∧ digest.length = 32 then
      some (codec, digest)
    else none
  | _ => none

/-! ### Standard detection and CID extraction (src/utils.py,
detect_arc_standard / extract_*_cid / create_collection_dataframe).

The base64-and-JSON test on the reserve field, the ARC-19 template and
address decoding, the ARC-69 metadata decoding and the gateway metadata
fetch are passed in as oracle functions (they involve library base64/JSON
parsing and network access); every claim proved over this embedding is
universally quantified over those oracles. -/

/-- Python str.startswith over the character data (kernel-computable). -/
def strStartsWith (s pre : String) : Bool := pre.data.isPrefixOf s.data

/-- ASCII whitespace test used by the Python str.strip modelling. -/
def isSpaceChar (c : Char) : Bool :=
  c = ' ' ∨ c = '\t' ∨ c = '\n' ∨ c = '\r'

/-- Python str.strip: drop whitespace from both ends. -/
def strTrim (s : String) : String :=
  ⟨((s.data.dropWhile isSpaceChar).reverse.dropWhile isSpaceChar).reverse⟩

/-- Remove every occurrence of a nonempty pattern from a character list
(Python str.replace with an empty replacement); the fuel argument is the
input length, which bounds the number of steps. -/
def removeAllAux (pat : List Char) : Nat → List Char → List Char
  | 0, _ => []
  | _ + 1, [] => []
  | fuel + 1, c :: cs =>
    if pat.isPrefixOf (c :: cs) then
      removeAllAux pat fuel ((c :: cs).drop pat.length)
    else c :: removeAllAux pat fuel cs

/-- Python str.replace with an empty replacement. -/
def strRemoveAll (s pat : String) : String :=
  ⟨removeAllAux pat.data s.data.length s.data⟩

/-- On-chain parameters of an asset, as read by detect_arc_standard. -/
structure AssetParams where
  url : String
  metadataMimeType : String
  reserve : String
deriving DecidableEq

/-- The raw-CID URL prefixes tested by the source. -/
def cidLikePrefixes : List String := ["Qm", "bafy", "bafk", "bafz"]

/-- detect_arc_standard: first-match-wins classification. The arc69Check
oracle stands for the source's try-block that base64-decodes the reserve
field and looks for an image or name key in the resulting JSON dict. -/
def detect_arc_standard (arc69Check : String → Bool) (p : AssetParams) :
    String :=
  if strStartsWith p.url "template-ipfs://" then "arc19"
  else if p.metadataMimeType = "" ∧ p.url ≠ ""
      ∧ (cidLikePrefixes.any (fun pre => strStartsWith p.url pre)
          ∨ strStartsWith p.url "ipfs://") then "arc19"
  else if p.reserve ≠ "" ∧ arc69Check p.reserve then "arc69"
  else if strStartsWith p.url "ipfs://" then "standard_ipfs"
  else if p.url ≠ "" ∧ 20 < p.url.length
      ∧ cidLikePrefixes.any (fun pre => strStartsWith p.url pre) then
    "potential_cid"
  else "unknown"

/-- Strip an ipfs:// URL to its bare CID: drop the scheme, then anything
from the first hash fragment, then anything from the first path slash. -/
def stripIpfsUrl (url : String) : String :=
  ⟨(((strRemoveAll url "ipfs://").data.takeWhile
      (fun c => ¬ c = '#')).takeWhile (fun c => ¬ c = '/'))⟩

/-- extract_standard_ipfs_cid. -/
def extract_standard_ipfs_cid (p : AssetParams) : Option String :=
  if p.url = "" ∨ ¬ strStartsWith p.url "ipfs://" then none
  else some (stripIpfsUrl p.url)

/-- extract_potential_cid. -/
def extract_potential_cid (p : AssetParams) : Option String :=
  let c := strTrim p.url
  if 10 < c.length ∧ cidLikePrefixes.any (fun pre => strStartsWith c pre) then
    some c
  else none

/-- extract_cid_from_asset: dispatch on the detected standard. The ARC-19
and ARC-69 extractors are oracles (address decoding, base64 metadata). -/
def extract_cid_from_asset (arc69Check : String → Bool)
    (arc19Ex arc69Ex : AssetParams → Option String) (p : AssetParams) :
    Option String :=
  match detect_arc_standard arc69Check p with
  | "arc19" => arc19Ex p
  | "arc69" => arc69Ex p
  | "standard_ipfs" => extract_standard_ipfs_cid p
  | "potential_cid" => extract_potential_cid p
  | _ => none

/-- A row of the collection DataFrame built by create_collection_dataframe. -/
structure CollectionRow where
  assetId : String
  assetName : String
  assetUrl : String
  arcStandard : String
  metadataCid : String
  imageCid : String
  status : String
  repinCid : String
  errorMessage : String
deriving DecidableEq

/-- A raw asset as returned by the indexer. -/
structure RawAsset where
  deleted : Bool
  index : String
  name : String
  params : AssetParams
deriving DecidableEq

/-- Carried-forward state of a prior run, looked up by asset id. -/
structure PriorState where
  status : String
  repinCid : String
  errorMessage : String
deriving DecidableEq

/-- The per-asset body of create_collection_dataframe: skip deleted assets,
classify, extract the CID (the source's truthiness test drops an asset
whose extracted CID is missing or the empty string), derive the image CID
by standard (for templated ARC-19 through the metadata-fetch oracle), and
either carry forward prior status by asset id or initialize a pending
row. -/
def create_collection_row (arc69Check : String → Bool)
    (arc19Ex arc69Ex : AssetParams → Option String)
    (fetchImageCid : String → Option String)
    (prior : String → Option PriorState)
    (asset : RawAsset) : Option CollectionRow :=
  if asset.deleted then none
  else
    let p := asset.params
    let std := detect_arc_standard arc69Check p
    match extract_cid_from_asset arc69Check arc19Ex arc69Ex p with
    | none => none
    | some mcid =>
      if mcid = "" then none
      else
      let imageCid : Option String :=
        if std = "arc19" then
          if p.metadataMimeType = "" then some mcid
          else fetchImageCid mcid
        else if std = "arc69" then some mcid
        else if std = "standard_ipfs" then some mcid
        else none
      match prior asset.index with
      | some st =>
        some { assetId := asset.index, assetName := asset.name,
               assetUrl := p.url, arcStandard := std, metadataCid := mcid,
               imageCid := imageCid.getD "", status := st.status,
               repinCid := st.repinCid, errorMessage := st.errorMessage }
      | none =>
        some { assetId := asset.index, assetName := asset.name,
               assetUrl := p.url, arcStandard := std, metadataCid := mcid,
               imageCid := imageCid.getD "", status := "pending",
               repinCid := "", errorMessage := "" }

/-! ### Streaming pin verification (src/utils.py, _stream_verify_cids and
verify_pinned_cids, 4everland path).

The remote inventory is modelled as the full ordered list of pin records
the paginated listing endpoint serves; a page fetch at offset o returns
the next pageSize records. HTTP failures, the wall-clock budget and rate
limiting are not modelled (requests always succeed instantly); the
human-readable status strings of the result details are omitted. -/

/-- One record of the remote pin listing, with the fields the verifier
reads: pin.cid and status. -/
structure PinEntry where
  cid : String
  status : String
deriving DecidableEq

/-- Streaming state: first-seen status per matched CID, and an occurrence
counter per matched CID, both insertion-ordered (Python dicts). -/
structure VState where
  found : List (String × String)
  dups : List (String × Nat)
deriving DecidableEq

/-- The statuses that count as pinned. -/
def validStatuses : List String := ["pinned", "queued", "pinning", "processing"]

/-- Page size used by the streaming verifier. -/
def pageSize : Nat := 2000

/-- Dynamic page cap by collection size. -/
def maxPagesFor (n : Nat) : Nat :=
  if n ≤ 500 then 50
  else if n ≤ 1000 then 100
  else if n ≤ 2500 then 250
  else 500

/-- Increment a CID's occurrence counter, initializing absent entries to 0
first as the source does. -/
def bumpDup (l : List (String × Nat)) (c : String) : List (String × Nat) :=
  match alookup l c with
  | some _ => l.map (fun kv => if kv.1 = c then (kv.1, kv.2 + 1) else kv)
  | none => l ++ [(c, 1)]

/-- Process one pin record of a page: if its CID is a target, record the
first-seen status and count the occurrence. -/
def processPin (targets : List String) (st : VState) (p : PinEntry) :
    VState :=
  if p.cid ∈ targets then
    { found :=
        match alookup st.found p.cid with
        | some _ => st.found
        | none => st.found ++ [(p.cid, p.status)],
      dups := bumpDup st.dups p.cid }
  else st

/-- Process one page of pin records. -/
def processPage (targets : List String) (st : VState)
    (page : List PinEntry) : VState :=
  page.foldl (processPin targets) st

/-- The paging loop of _stream_verify_cids. The fuel argument is the
remaining page budget (max_pages - pages_processed). Returns the final
state, the number of pages processed, and the number of page fetches
issued (an empty final page is fetched but not counted as processed). -/
def streamLoop (targets : List String) :
    Nat → List PinEntry → VState → VState × Nat × Nat
  | 0, _, st => (st, 0, 0)
  | fuel + 1, remaining, st =>
    if (dedupKeep targets).length ≤ st.found.length then (st, 0, 0)
    else
      let results := remaining.take pageSize
      if results.isEmpty then (st, 0, 1)
      else
        let st2 := processPage targets st results
        if (dedupKeep targets).length ≤ st2.found.length then (st2, 1, 1)
        else if results.length < pageSize then (st2, 1, 1)
        else
          let r := streamLoop targets fuel (remaining.drop pageSize) st2
          (r.1, r.2.1 + 1, r.2.2 + 1)

/-- Cap on individual lookups by number of missing CIDs
(_individual_lookup_limited). -/
def maxIndividualFor (n : Nat) : Nat :=
  if n ≤ 100 then n
  else if n ≤ 500 then min n 300
  else min n 500

/-- Individual lookup fallback (source _individual_lookup_limited): for each missing CID up to the cap, fetch
the first 200 pins of the inventory and search them for that CID; CIDs
beyond the cap are reported unchecked. Returns cid, is_pinned, status. -/
def individualLookupLimited (inventory : List PinEntry)
    (missing : List String) : List (String × Bool × String) :=
  (missing.take (maxIndividualFor missing.length)).map (fun c =>
    match (inventory.take 200).find? (fun p => p.cid == c) with
    | some p => (c, validStatuses.contains p.status, p.status)
    | none => (c, false, "Not in recent pins"))
  ++ (missing.drop (maxIndividualFor missing.length)).map (fun c =>
    (c, false, "Not checked (individual limit reached)"))

/-- One entry of the verification details list; the display string of the
source is omitted. -/
structure VerifyDetail where
  cid : String
  isPinned : Bool
deriving DecidableEq

/-- The duplicate report assembled by the streaming verifier (always
flagged as partial). -/
structure StreamDupReport where
  totalPins : Nat
  uniqueCids : Nat
  duplicateCids : Nat
  totalDuplicates : Nat
  partialFlag : Bool
deriving DecidableEq

/-- Result of one streaming verification run, with instrumentation: pages
processed, page fetches of the loop, and total remote requests issued. -/
structure StreamRun where
  verifiedCount : Nat
  details : List VerifyDetail
  report : Option StreamDupReport
  pages : Nat
  loopFetches : Nat
  requests : Nat
deriving DecidableEq

/-- The streaming loop run of _stream_verify_cids, started on the empty
state with the size-dependent page budget. -/
def svLoop (cids : List String) (inventory : List PinEntry) :
    VState × Nat × Nat :=
  streamLoop cids (maxPagesFor cids.length) inventory ⟨[], []⟩

/-- The requested CIDs still missing after the streaming loop. -/
def svMissing (cids : List String) (inventory : List PinEntry) :
    List String :=
  cids.filter (fun c => (alookup (svLoop cids inventory).1.found c).isNone)

/-- The found map after the optional individual-lookup fallback: when the
page cap was exhausted with CIDs still missing, limited individual
lookups run and only positive results are merged. -/
def svFound2 (cids : List String) (inventory : List PinEntry) :
    List (String × String) :=
  if svMissing cids inventory ≠ []
      ∧ maxPagesFor cids.length ≤ (svLoop cids inventory).2.1 then
    (individualLookupLimited inventory (svMissing cids inventory)).foldl
      (fun f r2 => if r2.2.1 then f ++ [(r2.1, r2.2.2)] else f)
      (svLoop cids inventory).1.found
  else (svLoop cids inventory).1.found

/-- The result-building loop: one detail per requested CID in order,
counting as verified the found CIDs whose status is a valid one. -/
def svBuild (cids : List String) (inventory : List PinEntry) :
    Nat × List VerifyDetail :=
  cids.foldl (fun acc c =>
      match alookup (svFound2 cids inventory) c with
      | some s =>
        (acc.1 + (if validStatuses.contains s then 1 else 0),
         acc.2 ++ [⟨c, validStatuses.contains s⟩])
      | none => (acc.1, acc.2 ++ [⟨c, false⟩]))
    ((0 : Nat), ([] : List VerifyDetail))

/-- Streaming verifier (source _stream_verify_cids): stream pages accumulating first-seen statuses and
occurrence counts, fall back to limited individual lookups when the page
cap was exhausted with CIDs still missing, then build the details and
the partial duplicate report. -/
def stream_verify_cids (cids : List String) (inventory : List PinEntry) :
    StreamRun :=
  let st := (svLoop cids inventory).1
  let pages := (svLoop cids inventory).2.1
  let fetches := (svLoop cids inventory).2.2
  let dupEntries := st.dups.filter (fun kv => 1 < kv.2)
  let report :=
    if 0 < dupEntries.length then
      some { totalPins := pages * pageSize, uniqueCids := st.found.length,
             duplicateCids := dupEntries.length,
             totalDuplicates := (dupEntries.map (fun kv => kv.2 - 1)).sum,
             partialFlag := true }
    else none
  { verifiedCount := (svBuild cids inventory).1,
    details := (svBuild cids inventory).2, report := report,
    pages := pages, loopFetches := fetches,
    requests := fetches +
      (if svMissing cids inventory ≠ []
          ∧ maxPagesFor cids.length ≤ pages then
        ((svMissing cids inventory).take
          (maxIndividualFor (svMissing cids inventory).length)).length
      else 0) }

/-- Result of verify_pinned_cids: verified count, total count, details,
duplicate report, plus the number of remote requests issued. -/
structure VerifyResult where
  verifiedCount : Nat
  totalCount : Nat
  details : List VerifyDetail
  report : Option StreamDupReport
  requests : Nat
deriving DecidableEq

/-- verify_pinned_cids (4everland path): an empty target list returns
immediately without touching the remote service; otherwise the streaming
verifier runs and the total is the number of requested CIDs. -/
def verify_pinned_cids (cids : List String) (inventory : List PinEntry) :
    VerifyResult :=
  if cids.isEmpty then ⟨0, 0, [], none, 0⟩
  else
    let r := stream_verify_cids cids inventory
    ⟨r.verifiedCount, cids.length, r.details, r.report, r.requests⟩

/-- Status of the first record for a CID in a pin record list. -/
def firstStatusIn (l : List PinEntry) (c : String) : Option String :=
  (l.find? (fun p => p.cid == c)).map PinEntry.status

/-- Specification predicate: a CID counts as pinned when the status of its
first occurrence in the inventory is a valid one. -/
def isPinnedSpec (inventory : List PinEntry) (c : String) : Bool :=
  match firstStatusIn inventory c with
  | some s => validStatuses.contains s
  | none => false

/-- The detail entry the result-building loop produces for one CID. -/
def detailOf (found2 : List (String × String)) (c : String) : VerifyDetail :=
  match alookup found2 c with
  | some s => ⟨c, validStatuses.contains s⟩
  | none => ⟨c, false⟩

/-- Well-formedness of the streaming state: the found map has distinct
keys, all of them target CIDs. -/
def FoundWF (targets : List String) (st : VState) : Prop :=
  (st.found.map Prod.fst).Nodup ∧ ∀ k ∈ st.found.map Prod.fst, k ∈ targets

/-! ### Full-inventory duplicate analysis (src/utils.py,
_get_4everland_pin_lookup_with_duplicates). The pagination that gathers
all_results is modelled by passing the full inventory as a list. -/

/-- A pin record of the full scan, with the fields the analysis reads. -/
structure Pin4 where
  cid : String
  status : String
  requestId : String
  created : String
deriving DecidableEq

/-- The per-instance record stored in duplicate_details. -/
structure PinInstanceRec where
  requestId : String
  status : String
  created : String
deriving DecidableEq

/-- The instance record built for one pin. -/
def instOf (p : Pin4) : PinInstanceRec := ⟨p.requestId, p.status, p.created⟩

/-- Dict assignment: overwrite an existing key in place, else append. -/
def aset {β : Type} (l : List (String × β)) (k : String) (v : β) :
    List (String × β) :=
  match alookup l k with
  | none => l ++ [(k, v)]
  | some _ => l.map (fun kv => if kv.1 = k then (kv.1, v) else kv)

/-- Accumulator of the full-scan analysis loop: pin_lookup, cid_counts and
duplicate_details. -/
structure ScanState where
  lookup : List (String × String)
  counts : List (String × Nat)
  details : List (String × List PinInstanceRec)
deriving DecidableEq

/-- One iteration of the analysis loop: skip empty CIDs, initialize or
bump the occurrence counter, append the instance record, and set the
lookup status (first write wins unless the new status is pinned). -/
def fullScanStep (st : ScanState) (p : Pin4) : ScanState :=
  if p.cid = "" then st
  else
    let st1 : ScanState :=
      match alookup st.counts p.cid with
      | none =>
        { st with counts := st.counts ++ [(p.cid, 1)],
                  details := st.details ++ [(p.cid, [instOf p])] }
      | some _ =>
        { st with
            counts := st.counts.map (fun kv =>
              if kv.1 = p.cid then (kv.1, kv.2 + 1) else kv),
            details := st.details.map (fun kv =>
              if kv.1 = p.cid then (kv.1, kv.2 ++ [instOf p]) else kv) }
    if (alookup st.lookup p.cid).isNone ∨ p.status = "pinned" then
      { st1 with lookup := aset st.lookup p.cid p.status }
    else st1

/-- The analysis over the whole inventory. -/
def fullScanAnalyze (pins : List Pin4) : ScanState :=
  pins.foldl fullScanStep ⟨[], [], []⟩

/-- The duplicate report of the full scan. -/
structure FullDupReport where
  totalPins : Nat
  uniqueCids : Nat
  duplicateCids : Nat
  totalDuplicates : Nat
  details : List (String × List PinInstanceRec)
deriving DecidableEq

/-- Full-scan duplicate analysis (source _get_4everland_pin_lookup_with_duplicates): run the analysis, filter the
CIDs occurring more than once, and assemble the lookup and the report
(total_duplicates is the sum of duplicate counts minus their number,
details keeps only the duplicated CIDs). -/
def get_pin_lookup_with_duplicates (pins : List Pin4) :
    List (String × String) × FullDupReport :=
  let st := fullScanAnalyze pins
  let duplicates := st.counts.filter (fun kv => 1 < kv.2)
  (st.lookup,
   { totalPins := pins.length,
     uniqueCids := st.lookup.length,
     duplicateCids := duplicates.length,
     totalDuplicates :=
       (duplicates.map (fun kv => kv.2)).sum - duplicates.length,
     details := duplicates.map (fun kv =>
       (kv.1, (alookup st.details kv.1).getD [])) })

/-- Number of occurrences of a CID in the inventory. -/
def occCount (pins : List Pin4) (c : String) : Nat :=
  pins.countP (fun p => p.cid == c)

/-- The nonempty CIDs of the inventory, in order, with repetitions. -/
def nonemptyCids (pins : List Pin4) : List String :=
  (pins.map Pin4.cid).filter (fun c => ¬ c = "")

/-- Specification value of total_duplicates: the sum of count - 1 over
every distinct CID occurring more than once. -/
def specTotalDuplicates (pins : List Pin4) : Nat :=
  (((dedupKeep (nonemptyCids pins)).filter
      (fun c => 1 < occCount pins c)).map
    (fun c => occCount pins c - 1)).sum

/-! ### Duplicate cleanup (src/utils.py, cleanup_duplicate_pins).

Only the survivor selection and the dry-run bookkeeping are modelled; the
HTTP deletion calls and rate-limit sleeps are effects outside the
embedding. The created timestamp is modelled as the result of the
source's date parse: some t on success (the sort uses its negation so
newer sorts first), none when parsing fails (score 0, as the source's
except branch sets). Python's sorted is stable, so its output is the one
produced by stable insertion sort over the same key order. -/

/-- Status priority of the survivor-selection sort key. -/
def statusPriority (s : String) : Nat :=
  if s = "pinned" then 0
  else if s = "queued" then 1
  else if s = "pinning" then 2
  else if s = "processing" then 3
  else if s = "failed" then 4
  else 5

/-- One instance of a duplicated CID, as listed in a full duplicate
report. -/
structure PinDupInstance where
  requestId : String
  status : String
  created : Option Int
deriving DecidableEq

/-- The date component of the sort key: negated timestamp (newer is
smaller), 0 when the date failed to parse. -/
def dateScore (i : PinDupInstance) : Int :=
  match i.created with
  | some t => -t
  | none => 0

/-- Lexicographic comparison of the sort keys
(status priority, date score, request id). -/
def sortKeyLE (a b : PinDupInstance) : Prop :=
  statusPriority a.status < statusPriority b.status ∨
  (statusPriority a.status = statusPriority b.status ∧
    (dateScore a < dateScore b ∨
      (dateScore a = dateScore b ∧ a.requestId ≤ b.requestId)))

instance : DecidableRel sortKeyLE := fun a b => by
  unfold sortKeyLE
  infer_instance

instance : IsTotal PinDupInstance sortKeyLE := by
  constructor
  intro a b
  unfold sortKeyLE
  rcases Nat.lt_trichotomy (statusPriority a.status)
      (statusPriority b.status) with h | h | h
  · exact Or.inl (Or.inl h)
  · rcases lt_trichotomy (dateScore a) (dateScore b) with h2 | h2 | h2
    · exact Or.inl (Or.inr ⟨h, Or.inl h2⟩)
    · rcases le_total a.requestId b.requestId with h3 | h3
      · exact Or.inl (Or.inr ⟨h, Or.inr ⟨h2, h3⟩⟩)
      · exact Or.inr (Or.inr ⟨h.symm, Or.inr ⟨h2.symm, h3⟩⟩)
    · exact Or.inr (Or.inr ⟨h.symm, Or.inl h2⟩)
  · exact Or.inr (Or.inl h)

instance : IsTrans PinDupInstance sortKeyLE := by
  constructor
  intro a b c hab hbc
  unfold sortKeyLE at hab hbc ⊢
  rcases hab with h1 | ⟨h1, h1d⟩
  · rcases hbc with h2 | ⟨h2, _⟩
    · exact Or.inl (Nat.lt_trans h1 h2)
    · exact Or.inl (h2 ▸ h1)
  · rcases hbc with h2 | ⟨h2, h2d⟩
    · exact Or.inl (h1 ▸ h2)
    · refine Or.inr ⟨h1.trans h2, ?_⟩
      rcases h1d with hd1 | ⟨hd1, hr1⟩
      · rcases h2d with hd2 | ⟨hd2, _⟩
        · exact Or.inl (lt_trans hd1 hd2)
        · exact Or.inl (hd2 ▸ hd1)
      · rcases h2d with hd2 | ⟨hd2, hr2⟩
        · exact Or.inl (hd1 ▸ hd2)
        · exact Or.inr ⟨hd1.trans hd2, le_trans hr1 hr2⟩

/-- The per-CID selection of cleanup_duplicate_pins: CIDs with at most one
instance are skipped; otherwise the instances are sorted by the stable
sort key order and the first one is kept, the rest deleted. -/

def cleanupPerCid (insts : List PinDupInstance) :
    Option (PinDupInstance × List PinDupInstance) :=
  if insts.length ≤ 1 then none
  else
    match List.insertionSort sortKeyLE insts with
    | [] => none
    | keep :: rest => some (keep, rest)

/-- cleanup_duplicate_pins in dry-run mode: process each duplicated CID of
the report's details, keeping the selected survivor and marking every
other instance as deleted. -/
def cleanup_duplicate_pins_dry
    (details : List (String × List PinDupInstance)) :
    List (String × PinDupInstance × List PinDupInstance) :=
  details.filterMap (fun e =>
    (cleanupPerCid e.2).map (fun kd => (e.1, kd.1, kd.2)))

/-! ### Migration status reconciliation (src/app.py, migrate_collection,
lines 1171-1237). Pin results are the pin_results dict accumulated by the
pinning phase: success flag and response, looked up by CID with a failing
default for absent CIDs. -/

/-- The stored outcome of one pin call; the response is its display
string. -/
structure PinOutcome where
  success : Bool
  response : String
deriving DecidableEq

/-- pin_results lookup with the source's failing default. -/
def lookupPinResult (pr : List (String × PinOutcome)) (c : String)
    (defMsg : String) : PinOutcome :=
  (alookup pr c).getD ⟨false, defMsg⟩

/-- The success-message fragments of the reconciliation (the
directory-path fragment of the source is display-only and omitted). -/
def successDetails (imgCid metaCid : String) : List String :=
  ["Image CID: " ++ imgCid.take 16 ++ "..."] ++
  (if metaCid ≠ "" ∧ metaCid ≠ imgCid then
    ["Metadata CID: " ++ metaCid.take 16 ++ "..."]
  else if metaCid = imgCid then ["Metadata: Same as image (ARC-69)"]
  else [])

/-- The failure-message fragments: one per failing required CID. -/
def migrateErrorParts (imageRes metaRes : PinOutcome)
    (imgCid metaCid : String) : List String :=
  (if imageRes.success then [] else ["Image: " ++ imageRes.response]) ++
  (if metaCid ≠ "" ∧ metaCid ≠ imgCid ∧ ¬ metaRes.success then
    ["Metadata: " ++ metaRes.response]
  else [])

/-- The image pin outcome the reconciliation reads for a row. -/
def migrateImageRes (pr : List (String × PinOutcome)) (imgCid : String) :
    PinOutcome :=
  lookupPinResult pr imgCid "Image CID not found in results"

/-- The metadata pin outcome the reconciliation reads for a row: success
when the metadata CID is absent or equal to the image CID, otherwise its
own pin outcome. -/
def migrateMetaRes (pr : List (String × PinOutcome))
    (imgCid metaCid : String) : PinOutcome :=
  if metaCid = "" then ⟨true, "No metadata CID"⟩
  else if metaCid = imgCid then ⟨true, "Same as image CID"⟩
  else lookupPinResult pr metaCid "Metadata CID not found in results"

/-- The per-asset status update of migrate_collection: metadata counts as
pinned when absent or equal to the image CID, otherwise by its own pin
outcome; on overall success the row becomes completed with repin_cid set
to the image CID, otherwise failed with the joined error fragments. -/
def update_asset_status (pr : List (String × PinOutcome))
    (row : CollectionRow) : CollectionRow :=
  let imgCid := row.imageCid
  let metaCid := strTrim row.metadataCid
  let imageRes := migrateImageRes pr imgCid
  let metaRes := migrateMetaRes pr imgCid metaCid
  if imageRes.success && metaRes.success then
    { row with
        status := "completed"
        repinCid := imgCid
        errorMessage := "Complete NFT pinned ("
          ++ String.intercalate ", " (successDetails imgCid metaCid)
          ++ ")" }
  else
    { row with
        status := "failed"
        errorMessage :=
          let parts := migrateErrorParts imageRes metaRes imgCid metaCid
          if parts.isEmpty then "Unknown error"
          else String.intercalate "; " parts }

/-- The reconciliation pass: every pending row is updated from the pin
results; rows that are not pending are left untouched. -/
def migrate_collection_statuses (pr : List (String × PinOutcome))
    (rows : List CollectionRow) : List CollectionRow :=
  rows.map (fun r =>
    if r.status = "pending" then update_asset_status pr r else r)

/-- Pin results of the partial-success example: X and Y pinned, Z
failed. -/
def pinResultsC7 : List (String × PinOutcome) :=
  [("X", ⟨true, "ok"⟩), ("Y", ⟨true, "ok"⟩), ("Z", ⟨false, "HTTP 500"⟩)]

/-- Asset A of the partial-success example: image X, metadata Y. -/
def rowA : CollectionRow :=
  ⟨"1", "A", "", "arc19", "Y", "X", "pending", "", ""⟩

/-- Asset B of the partial-success example: image X, metadata Z. -/
def rowB : CollectionRow :=
  ⟨"2", "B", "", "arc19", "Z", "X", "pending", "", ""⟩

/-- Failed instance of the duplicate-cleanup example. -/
def failedInst : PinDupInstance := ⟨"r1", "failed", some 100⟩

/-- Pinned instance of the duplicate-cleanup example. -/
def pinnedInst : PinDupInstance := ⟨"r2", "pinned", some 50⟩

/-- Queued instance of the duplicate-cleanup example. -/
def queuedInst : PinDupInstance := ⟨"r3", "queued", some 200⟩

/-- The asset exhibiting the potential_cid classification: a CID-shaped
URL longer than 20 characters with a nonempty mime type and no
reserve. -/
def potentialCidAsset : RawAsset :=
  ⟨false, "123", "Asset",
    ⟨"Qmaaaaaaaaaaaaaaaaaaaaaaaaaaaaaaaaaaaaaaaaaaaa", "image/png", ""⟩⟩

/-- A standard-IPFS asset and its built row, used to instantiate the
amended C9 statement. -/
def ipfsWitnessAsset : RawAsset := ⟨false, "9", "W", ⟨"ipfs://Qmb", "x", ""⟩⟩

/-- The row the builder produces for ipfsWitnessAsset. -/
def ipfsWitnessRow : CollectionRow :=
  ⟨"9", "W", "ipfs://Qmb", "standard_ipfs", "Qmb", "Qmb", "pending", "", ""⟩

theorem mem_dedupAux {seen l} {c : String} :
    c ∈ dedupAux seen l ↔ c ∈ l ∧ c ∉ seen := by
  induction l generalizing seen with
  | nil => simp [dedupAux]
  | cons x xs ih =>
    by_cases hx : x ∈ seen
    · simp only [dedupAux, if_pos hx, ih]
      constructor
      · rintro ⟨h1, h2⟩; exact ⟨List.mem_cons_of_mem _ h1, h2⟩
      · rintro ⟨h1, h2⟩
        rcases List.mem_cons.mp h1 with rfl | h1
        · exact absurd hx h2
        · exact ⟨h1, h2⟩
    · simp only [dedupAux, if_neg hx]
      constructor
      · intro h
        rcases List.mem_cons.mp h with rfl | h
        · exact ⟨List.mem_cons_self _ _, hx⟩
        · rcases ih.mp h with ⟨h1, h2⟩
          simp only [List.mem_cons, not_or] at h2
          exact ⟨List.mem_cons_of_mem _ h1, h2.2⟩
      · rintro ⟨h1, h2⟩
        rcases List.mem_cons.mp h1 with rfl | h1
        · exact List.mem_cons_self _ _
        · by_cases hcx : c = x
          · subst hcx; exact List.mem_cons_self _ _
          · exact List.mem_cons_of_mem _ (ih.mpr ⟨h1, by simp [hcx, h2]⟩)

theorem mem_dedupKeep {l} {c : String} : c ∈ dedupKeep l ↔ c ∈ l := by
  simp [dedupKeep, mem_dedupAux]

theorem nodup_dedupAux (seen l) : (dedupAux seen l).Nodup := by
  induction l generalizing seen with
  | nil => simp [dedupAux]
  | cons x xs ih =>
    by_cases hx : x ∈ seen
    · simpa [dedupAux, hx] using ih seen
    · simp only [dedupAux, if_neg hx]
      refine List.nodup_cons.mpr ⟨?_, ih (x :: seen)⟩
      intro hmem
      exact (mem_dedupAux.mp hmem).2 (List.mem_cons_self _ _)

theorem nodup_dedupKeep (l) : (dedupKeep l).Nodup := nodup_dedupAux [] l

theorem dedupAux_append_single (seen l) (a : String) :
    dedupAux seen (l ++ [a]) =
      if a ∈ seen ∨ a ∈ l then dedupAux seen l else dedupAux seen l ++ [a] := by
  induction l generalizing seen with
  | nil =>
    by_cases h : a ∈ seen <;> simp [dedupAux, h]
  | cons x xs ih =>
    have hxa : (x :: xs) ++ [a] = x :: (xs ++ [a]) := rfl
    rw [hxa]
    by_cases hx : x ∈ seen
    · show dedupAux seen (x :: (xs ++ [a])) = _
      rw [show dedupAux seen (x :: (xs ++ [a]))
            = if x ∈ seen then dedupAux seen (xs ++ [a])
              else x :: dedupAux (x :: seen) (xs ++ [a]) from rfl,
        if_pos hx, ih seen,
        show dedupAux seen (x :: xs)
            = if x ∈ seen then dedupAux seen xs
              else x :: dedupAux (x :: seen) xs from rfl,
        if_pos hx]
      by_cases ha : a ∈ seen ∨ a ∈ xs
      · rw [if_pos ha, if_pos (by tauto)]
      · rw [if_neg ha, if_neg (by
          rintro (h1 | h2)
          · exact ha (Or.inl h1)
          · rcases List.mem_cons.mp h2 with rfl | h2
            · exact ha (Or.inl hx)
            · exact ha (Or.inr h2))]
    · rw [show dedupAux seen (x :: (xs ++ [a]))
            = if x ∈ seen then dedupAux seen (xs ++ [a])
              else x :: dedupAux (x :: seen) (xs ++ [a]) from rfl,
        if_neg hx, ih (x :: seen),
        show dedupAux seen (x :: xs)
            = if x ∈ seen then dedupAux seen xs
              else x :: dedupAux (x :: seen) xs from rfl,
        if_neg hx]
      by_cases ha : a ∈ x :: seen ∨ a ∈ xs
      · rw [if_pos ha, if_pos (by
          rcases ha with h1 | h2
          · rcases List.mem_cons.mp h1 with rfl | h1
            · exact Or.inr (List.mem_cons_self _ _)
            · exact Or.inl h1
          · exact Or.inr (List.mem_cons_of_mem _ h2))]
      · rw [if_neg ha, if_neg (by
          rintro (h1 | h2)
          · exact ha (Or.inl (List.mem_cons_of_mem _ h1))
          · rcases List.mem_cons.mp h2 with rfl | h2
            · exact ha (Or.inl (List.mem_cons_self _ _))
            · exact ha (Or.inr h2))]
        simp

theorem dedupKeep_append_single (l) (a : String) :
    dedupKeep (l ++ [a]) =
      if a ∈ l then dedupKeep l else dedupKeep l ++ [a] := by
  simp [dedupKeep, dedupAux_append_single]

theorem alookup_append {β : Type} (l1 l2 : List (String × β)) (c : String) :
    alookup (l1 ++ l2) c =
      match alookup l1 c with
      | some v => some v
      | none => alookup l2 c := by
  induction l1 with
  | nil => simp [alookup]
  | cons kv t ih =>
    by_cases h : kv.1 = c
    · simp [alookup, h]
    · simpa [alookup, h] using ih

theorem alookup_eq_none_iff {β : Type} (l : List (String × β)) (c : String) :
    alookup l c = none ↔ c ∉ l.map Prod.fst := by
  induction l with
  | nil => simp [alookup]
  | cons kv t ih =>
    by_cases h : kv.1 = c
    · simp [alookup, h]
    · simp [alookup, h, ih, Ne.symm h]

theorem alookup_isSome_mem {β : Type} {l : List (String × β)} {c : String}
    (h : (alookup l c).isSome) : c ∈ l.map Prod.fst := by
  by_contra hc
  rw [← alookup_eq_none_iff] at hc
  rw [hc] at h
  simp at h

theorem alookup_map_self {l : List String} (g : String → α) (c : String) :
    alookup (l.map (fun x => (x, g x))) c = if c ∈ l then some (g c) else none := by
  induction l with
  | nil => simp [alookup]
  | cons x xs ih =>
    by_cases h : x = c
    · subst h; simp [alookup]
    · simp [alookup, h, ih, Ne.symm h]

theorem list_take_add (l : List α) (m n : Nat) :
    l.take (m + n) = l.take m ++ (l.drop m).take n := by
  induction m generalizing l with
  | zero => simp
  | succ k ih =>
    cases l with
    | nil => simp
    | cons x xs => simp [Nat.succ_add, List.take_succ_cons, ih]

theorem bytesOfQuintets_quintetsOfBytes :
    ∀ bs : List Nat, (∀ b ∈ bs, b < 256) →
      bytesOfQuintets (quintetsOfBytes bs) = bs
  | [], _ => rfl
  | [a], h => by
    have ha : a < 256 := h a (by simp)
    simp only [quintetsOfBytes, bytesOfQuintets, List.cons.injEq, and_true]
    omega
  | [a, b], h => by
    have ha : a < 256 := h a (by simp)
    have hb : b < 256 := h b (by simp)
    simp only [quintetsOfBytes, bytesOfQuintets, List.cons.injEq, and_true]
    omega
  | [a, b, c], h => by
    have ha : a < 256 := h a (by simp)
    have hb : b < 256 := h b (by simp)
    have hc : c < 256 := h c (by simp)
    simp only [quintetsOfBytes, bytesOfQuintets, List.cons.injEq, and_true]
    omega
  | [a, b, c, d], h => by
    have ha : a < 256 := h a (by simp)
    have hb : b < 256 := h b (by simp)
    have hc : c < 256 := h c (by simp)
    have hd : d < 256 := h d (by simp)
    simp only [quintetsOfBytes, bytesOfQuintets, List.cons.injEq, and_true]
    omega
  | a :: b :: c :: d :: e :: rest, h => by
    have ha : a < 256 := h a (by simp)
    have hb : b < 256 := h b (by simp)
    have hc : c < 256 := h c (by simp)
    have hd : d < 256 := h d (by simp)
    have he : e < 256 := h e (by simp)
    have ih := bytesOfQuintets_quintetsOfBytes rest
      (fun x hx => h x (by simp [hx]))
    simp only [quintetsOfBytes, bytesOfQuintets, ih, List.cons.injEq, and_true]
    omega

theorem quintetsOfBytes_lt :
    ∀ bs : List Nat, (∀ b ∈ bs, b < 256) → ∀ q ∈ quintetsOfBytes bs, q < 32
  | [], _ => by simp [quintetsOfBytes]
  | [a], h => by
    have ha : a < 256 := h a (by simp)
    simp only [quintetsOfBytes, List.mem_cons, List.not_mem_nil, or_false]
    rintro q (rfl | rfl) <;> omega
  | [a, b], h => by
    have ha : a < 256 := h a (by simp)
    have hb : b < 256 := h b (by simp)
    simp only [quintetsOfBytes, List.mem_cons, List.not_mem_nil, or_false]
    rintro q (rfl | rfl | rfl | rfl) <;> omega
  | [a, b, c], h => by
    have ha : a < 256 := h a (by simp)
    have hb : b < 256 := h b (by simp)
    have hc : c < 256 := h c (by simp)
    simp only [quintetsOfBytes, List.mem_cons, List.not_mem_nil, or_false]
    rintro q (rfl | rfl | rfl | rfl | rfl) <;> omega
  | [a, b, c, d], h => by
    have ha : a < 256 := h a (by simp)
    have hb : b < 256 := h b (by simp)
    have hc : c < 256 := h c (by simp)
    have hd : d < 256 := h d (by simp)
    simp only [quintetsOfBytes, List.mem_cons, List.not_mem_nil, or_false]
    rintro q (rfl | rfl | rfl | rfl | rfl | rfl | rfl) <;> omega
  | a :: b :: c :: d :: e :: rest, h => by
    have ha : a < 256 := h a (by simp)
    have hb : b < 256 := h b (by simp)
    have hc : c < 256 := h c (by simp)
    have hd : d < 256 := h d (by simp)
    have he : e < 256 := h e (by simp)
    have ih := quintetsOfBytes_lt rest (fun x hx => h x (by simp [hx]))
    simp only [quintetsOfBytes, List.mem_cons]
    rintro q (rfl | rfl | rfl | rfl | rfl | rfl | rfl | rfl | hq)
    · omega
    · omega
    · omega
    · omega
    · omega
    · omega
    · omega
    · omega
    · exact ih q hq

theorem b32valOfChar_b32charOfVal : ∀ v, v < 32 →
    b32valOfChar (b32charOfVal v) = some v := by decide

theorem b32valsOfChars_map (vs : List Nat) (h : ∀ v ∈ vs, v < 32) :
    b32valsOfChars (vs.map b32charOfVal) = some vs := by
  induction vs with
  | nil => rfl
  | cons v t ih =>
    have hv := b32valOfChar_b32charOfVal v (h v (by simp))
    have ht := ih (fun x hx => h x (by simp [hx]))
    simp only [List.map_cons, b32valsOfChars, hv, ht]

theorem decodeMultibaseB32_multibaseB32 (bs : List Nat)
    (h : ∀ b ∈ bs, b < 256) :
    decodeMultibaseB32 (multibaseB32 bs) = some bs := by
  simp only [multibaseB32, decodeMultibaseB32,
    b32valsOfChars_map _ (quintetsOfBytes_lt bs h),
    bytesOfQuintets_quintetsOfBytes bs h]

theorem b58digitOfChar_b58charOfDigit : ∀ d, d < 58 →
    b58digitOfChar (b58charOfDigit d) = some d := by decide

theorem b58charOfDigit_eq_one_iff : ∀ d, d < 58 →
    (b58charOfDigit d = '1' ↔ d = 0) := by decide

theorem natDigitsAux_zero (base fuel) : natDigitsAux base fuel 0 = [] := by
  cases fuel <;> simp [natDigitsAux]

theorem natValue_foldl_acc (base : Nat) (l : List Nat) (a : Nat) :
    l.foldl (fun acc d => acc * base + d) a
      = a * base ^ l.length + natValue base l := by
  induction l generalizing a with
  | nil => simp [natValue]
  | cons d t ih =>
    show List.foldl _ (a * base + d) t = _
    rw [ih (a * base + d)]
    have hd : natValue base (d :: t)
        = d * base ^ t.length + natValue base t := by
      show List.foldl _ (0 * base + d) t = _
      rw [ih (0 * base + d)]; ring_nf
    rw [hd]
    simp [List.length_cons, pow_succ]
    ring

theorem natValue_cons (base h : Nat) (t : List Nat) :
    natValue base (h :: t) = h * base ^ t.length + natValue base t := by
  show List.foldl _ (0 * base + h) t = _
  rw [natValue_foldl_acc]; ring_nf

theorem natValue_append (base : Nat) (l1 l2 : List Nat) :
    natValue base (l1 ++ l2)
      = natValue base l1 * base ^ l2.length + natValue base l2 := by
  show List.foldl _ 0 (l1 ++ l2) = _
  rw [List.foldl_append, natValue_foldl_acc]
  rfl

theorem natValue_append_single (base : Nat) (l : List Nat) (d : Nat) :
    natValue base (l ++ [d]) = natValue base l * base + d := by
  rw [natValue_append]; simp [natValue]

theorem natValue_replicate_zero (base z : Nat) :
    natValue base (List.replicate z 0) = 0 := by
  induction z with
  | zero => rfl
  | succ k ih =>
    rw [List.replicate_succ, natValue_cons, ih]
    simp

theorem natValue_lt (base : Nat) (hb : 0 < base) :
    ∀ bs : List Nat, (∀ b ∈ bs, b < base) →
      natValue base bs < base ^ bs.length := by
  intro bs
  induction bs with
  | nil => simp [natValue]
  | cons h t ih =>
    intro hlt
    rw [natValue_cons, List.length_cons, pow_succ]
    have h1 : h < base := hlt h (by simp)
    have h2 : natValue base t < base ^ t.length :=
      ih (fun x hx => hlt x (by simp [hx]))
    have h3 : h * base ^ t.length + natValue base t
        < (h + 1) * base ^ t.length := by
      rw [Nat.succ_mul]; omega
    calc h * base ^ t.length + natValue base t
        < (h + 1) * base ^ t.length := h3
      _ ≤ base * base ^ t.length := by
          exact Nat.mul_le_mul_right _ (by omega)
      _ = base ^ t.length * base := by ring

theorem natValue_pos (base : Nat) (hb : 0 < base) (h : Nat) (t : List Nat)
    (hh : 0 < h) : 0 < natValue base (h :: t) := by
  rw [natValue_cons]
  have : 0 < base ^ t.length := Nat.pos_pow_of_pos t.length hb
  have := Nat.mul_le_mul hh this
  omega

theorem natValue_natDigitsAux (base : Nat) (hb : 1 < base) :
    ∀ fuel n, n < base ^ fuel →
      natValue base (natDigitsAux base fuel n) = n := by
  intro fuel
  induction fuel with
  | zero =>
    intro n hn
    simp only [pow_zero, Nat.lt_one_iff] at hn
    simp [hn, natDigitsAux, natValue]
  | succ k ih =>
    intro n hn
    by_cases h0 : n = 0
    · simp [h0, natDigitsAux, natValue]
    · rw [show natDigitsAux base (k + 1) n
          = if n = 0 then [] else natDigitsAux base k (n / base) ++ [n % base]
          from rfl, if_neg h0, natValue_append_single,
        ih (n / base) (by
          rw [pow_succ, Nat.mul_comm] at hn
          exact Nat.div_lt_of_lt_mul hn)]
      rw [Nat.mul_comm]
      exact Nat.div_add_mod n base

theorem natDigitsAux_lt (base : Nat) (hb : 0 < base) :
    ∀ fuel n, ∀ d ∈ natDigitsAux base fuel n, d < base := by
  intro fuel
  induction fuel with
  | zero => simp [natDigitsAux]
  | succ k ih =>
    intro n d hd
    by_cases h0 : n = 0
    · simp [h0, natDigitsAux] at hd
    · rw [show natDigitsAux base (k + 1) n
          = if n = 0 then [] else natDigitsAux base k (n / base) ++ [n % base]
          from rfl, if_neg h0] at hd
      rcases List.mem_append.mp hd with h1 | h2
      · exact ih (n / base) d h1
      · simp at h2
        subst h2
        exact Nat.mod_lt _ hb

theorem natDigitsAux_head_pos (base : Nat) (hb : 1 < base) :
    ∀ fuel n, 0 < n → n < base ^ fuel →
      ∃ d ds, natDigitsAux base fuel n = d :: ds ∧ 0 < d := by
  intro fuel
  induction fuel with
  | zero =>
    intro n hpos hn
    simp only [pow_zero, Nat.lt_one_iff] at hn
    omega
  | succ k ih =>
    intro n hpos hn
    rw [show natDigitsAux base (k + 1) n
        = if n = 0 then [] else natDigitsAux base k (n / base) ++ [n % base]
        from rfl, if_neg (by omega)]
    by_cases hsmall : n < base
    · rw [Nat.div_eq_of_lt hsmall, natDigitsAux_zero]
      exact ⟨n % base, [], by simp, by rwa [Nat.mod_eq_of_lt hsmall]⟩
    · have hq : 0 < n / base := Nat.div_pos (by omega) (by omega)
      have hqlt : n / base < base ^ k := by
        rw [pow_succ, Nat.mul_comm] at hn
        exact Nat.div_lt_of_lt_mul hn
      obtain ⟨d, ds, heq, hd⟩ := ih (n / base) hq hqlt
      exact ⟨d, ds ++ [n % base], by rw [heq]; simp, hd⟩

theorem head_dropWhile_false (p : α → Bool) :
    ∀ (l : List α) (x : α), (l.dropWhile p).head? = some x → p x = false := by
  intro l
  induction l with
  | nil => simp [List.dropWhile]
  | cons y t ih =>
    intro x hx
    by_cases hy : p y
    · rw [List.dropWhile_cons_of_pos hy] at hx
      exact ih x hx
    · rw [List.dropWhile_cons_of_neg hy] at hx
      simp at hx
      subst hx
      simpa using hy

theorem natBytesAux_natValue :
    ∀ (bs : List Nat), (∀ b ∈ bs, b < 256) → bs.head? ≠ some 0 →
      ∀ fuel, bs.length ≤ fuel → natBytesAux fuel (natValue 256 bs) = bs := by
  intro bs
  induction bs using List.reverseRecOn with
  | nil =>
    intro _ _ fuel _
    simp [natValue, natBytesAux, natDigitsAux_zero]
  | append_singleton xs x ih =>
    intro hlt hhead fuel hfuel
    have hx : x < 256 := hlt x (by simp)
    rw [natValue_append_single]
    obtain ⟨f, rfl⟩ : ∃ f, fuel = f + 1 := by
      cases fuel
      · simp at hfuel
      · exact ⟨_, rfl⟩
    cases xs with
    | nil =>
      have hx0 : x ≠ 0 := by
        simpa [List.head?] using hhead
      simp only [natValue, List.foldl_nil, natBytesAux]
      rw [show natDigitsAux 256 (f + 1) (0 * 256 + x)
          = if 0 * 256 + x = 0 then []
            else natDigitsAux 256 f ((0 * 256 + x) / 256) ++ [(0 * 256 + x) % 256]
          from rfl, if_neg (by omega)]
      rw [show (0 * 256 + x) / 256 = 0 by omega, natDigitsAux_zero]
      simp only [List.nil_append]
      rw [show (0 * 256 + x) % 256 = x by omega]
    | cons y ys =>
      have hy0 : y ≠ 0 := by
        intro h
        apply hhead
        simp [List.head?, h]
      have hpos : 0 < natValue 256 (y :: ys) :=
        natValue_pos 256 (by omega) y ys (by omega)
      have hne : natValue 256 (y :: ys) * 256 + x ≠ 0 := by positivity
      simp only [natBytesAux]
      rw [show natDigitsAux 256 (f + 1) (natValue 256 (y :: ys) * 256 + x)
          = if natValue 256 (y :: ys) * 256 + x = 0 then []
            else natDigitsAux 256 f ((natValue 256 (y :: ys) * 256 + x) / 256)
              ++ [(natValue 256 (y :: ys) * 256 + x) % 256]
          from rfl, if_neg hne]
      rw [show (natValue 256 (y :: ys) * 256 + x) / 256 = natValue 256 (y :: ys)
          by omega]
      rw [show (natValue 256 (y :: ys) * 256 + x) % 256 = x by omega]
      have ihy := ih (fun b hb => hlt b (by simp at hb ⊢; tauto))
        (by simp [List.head?, hy0]) f (by simpa using hfuel)
      rw [natBytesAux] at ihy
      rw [ihy]

theorem b58charsToDigits_append {l1 l2 : List Char} {v1 v2 : List Nat}
    (h1 : b58charsToDigits l1 = some v1) (h2 : b58charsToDigits l2 = some v2) :
    b58charsToDigits (l1 ++ l2) = some (v1 ++ v2) := by
  induction l1 generalizing v1 with
  | nil =>
    simp [b58charsToDigits] at h1
    subst h1
    simpa using h2
  | cons c cs ih =>
    simp only [b58charsToDigits] at h1
    rcases hc : b58digitOfChar c with _ | v
    · rw [hc] at h1; simp at h1
    · rw [hc] at h1
      rcases hcs : b58charsToDigits cs with _ | vs
      · rw [hcs] at h1; simp at h1
      · rw [hcs] at h1
        simp at h1
        subst h1
        simp only [List.cons_append, b58charsToDigits, hc, List.append_eq,
          ih hcs]

theorem b58charsToDigits_map (vs : List Nat) (h : ∀ v ∈ vs, v < 58) :
    b58charsToDigits (vs.map b58charOfDigit) = some vs := by
  induction vs with
  | nil => rfl
  | cons v t ih =>
    have hv := b58digitOfChar_b58charOfDigit v (h v (by simp))
    have ht := ih (fun x hx => h x (by simp [hx]))
    simp only [List.map_cons, b58charsToDigits, hv, ht]

theorem b58charsToDigits_replicate_one (z : Nat) :
    b58charsToDigits (List.replicate z '1') = some (List.replicate z 0) := by
  induction z with
  | zero => rfl
  | succ k ih =>
    simp only [List.replicate_succ, b58charsToDigits, ih]
    rfl

theorem takeWhile_replicate_self (p : α → Bool) (a : α) (ha : p a = true) (z : Nat) :
    List.takeWhile p (List.replicate z a) = List.replicate z a := by
  induction z with
  | zero => rfl
  | succ k ih => simp [List.replicate_succ, List.takeWhile_cons, ha, ih]

theorem takeWhile_replicate_append (p : α → Bool) (a : α) (ha : p a = true)
    (z : Nat) (l : List α) :
    List.takeWhile p (List.replicate z a ++ l)
      = List.replicate z a ++ List.takeWhile p l := by
  induction z with
  | zero => simp
  | succ k ih => simp [List.replicate_succ, List.takeWhile_cons, ha, ih]

theorem pow_256_32_le_pow_58_64 : (256 : Nat) ^ 32 ≤ 58 ^ 64 := by norm_num

theorem b58decodeBytes_b58encode (bs : List Nat) (h : ∀ b ∈ bs, b < 256)
    (hlen : bs.length ≤ 32) : b58decodeBytes (b58encode bs) = some bs := by
  set z := (bs.takeWhile (fun b => b == 0)).length with hz
  set d := bs.dropWhile (fun b => b == 0) with hd
  have hsplit : bs.takeWhile (fun b => b == 0) ++ d = bs := by
    rw [hd]
    exact List.takeWhile_append_dropWhile _ _
  have htake : bs.takeWhile (fun b => b == 0) = List.replicate z 0 := by
    apply List.eq_replicate_of_mem
    intro b hb
    have := List.mem_takeWhile_imp hb
    simpa using this
  have hbs : List.replicate z 0 ++ d = bs := by rw [← htake]; exact hsplit
  have hdlt : ∀ b ∈ d, b < 256 := by
    intro b hb
    rw [hd] at hb
    exact h b (List.dropWhile_subset _ hb)
  have hdlen : d.length ≤ 32 := by
    calc d.length ≤ bs.length := by
          rw [hd]
          exact (List.dropWhile_sublist _).length_le
      _ ≤ 32 := hlen
  have hdhead : d.head? ≠ some 0 := by
    intro hcon
    rw [hd] at hcon
    have := head_dropWhile_false (fun b => b == 0) bs 0 hcon
    simp at this
  have hval : natValue 256 bs = natValue 256 d := by
    rw [← hbs, natValue_append, natValue_replicate_zero]
    simp
  have hnlt : natValue 256 d < 58 ^ 64 := by
    calc natValue 256 d < 256 ^ d.length :=
          natValue_lt 256 (by omega) d hdlt
      _ ≤ 256 ^ 32 := Nat.pow_le_pow_right (by omega) hdlen
      _ ≤ 58 ^ 64 := pow_256_32_le_pow_58_64
  rcases Nat.eq_zero_or_pos (natValue 256 d) with hn0 | hnpos
  · have hdnil : d = [] := by
      cases hdcase : d with
      | nil => rfl
      | cons y ys =>
        have hy0 : y ≠ 0 := by
          intro hcon
          exact hdhead (by simp [hdcase, List.head?, hcon])
        have := natValue_pos 256 (by omega) y ys (by omega)
        rw [hdcase] at hn0
        omega
    have hbz : bs = List.replicate z 0 := by
      rw [← hbs, hdnil, List.append_nil]
    have henc : b58encode bs = ⟨List.replicate z '1'⟩ := by
      simp only [b58encode, hval, hn0, natDigitsAux_zero, List.map_nil,
        List.append_nil, ← hz]
    have hdec : b58decodeBytes ⟨List.replicate z '1'⟩
        = some (List.replicate z 0) := by
      rw [show b58decodeBytes ⟨List.replicate z '1'⟩
          = match b58charsToDigits (List.replicate z '1') with
            | some ds2 => some (List.replicate
                ((List.takeWhile (fun c => c == '1')
                  (List.replicate z '1')).length) 0
                ++ natBytesAux 44 (natValue 58 ds2))
            | none => none
          from rfl]
      rw [b58charsToDigits_replicate_one,
        takeWhile_replicate_self (fun c => c == '1') '1' (by rfl) z]
      simp [natValue_replicate_zero, natBytesAux, natDigitsAux_zero]
    rw [henc, hdec, ← hbz]
  · obtain ⟨d0, ds, hdig, hd0⟩ :=
      natDigitsAux_head_pos 58 (by omega) 64 (natValue 256 d) hnpos hnlt
    have hdiglt : ∀ x ∈ natDigitsAux 58 64 (natValue 256 d), x < 58 :=
      natDigitsAux_lt 58 (by omega) 64 (natValue 256 d)
    have hd0lt : d0 < 58 := hdiglt d0 (by rw [hdig]; simp)
    have hchar : b58charOfDigit d0 ≠ '1' := by
      intro hcon
      have := (b58charOfDigit_eq_one_iff d0 hd0lt).mp hcon
      omega
    have henc : b58encode bs = ⟨List.replicate z '1'
        ++ (natDigitsAux 58 64 (natValue 256 d)).map b58charOfDigit⟩ := by
      simp only [b58encode, hval, ← hz]
    have hparse : b58charsToDigits (List.replicate z '1'
        ++ (natDigitsAux 58 64 (natValue 256 d)).map b58charOfDigit)
        = some (List.replicate z 0 ++ natDigitsAux 58 64 (natValue 256 d)) :=
      b58charsToDigits_append (b58charsToDigits_replicate_one z)
        (b58charsToDigits_map _ hdiglt)
    have htw : List.takeWhile (fun c => c == '1')
        (List.replicate z '1'
          ++ (natDigitsAux 58 64 (natValue 256 d)).map b58charOfDigit)
        = List.replicate z '1' := by
      rw [takeWhile_replicate_append (fun c => c == '1') '1' (by rfl) z,
        hdig, List.map_cons,
        List.takeWhile_cons_of_neg (by simpa using hchar)]
      simp
    have hveq : natValue 58 (List.replicate z 0
        ++ natDigitsAux 58 64 (natValue 256 d)) = natValue 256 d := by
      rw [natValue_append, natValue_replicate_zero]
      simp only [Nat.zero_mul, Nat.zero_add]
      exact natValue_natDigitsAux 58 (by omega) 64 (natValue 256 d) hnlt
    have hbytes : natBytesAux 44 (natValue 256 d) = d :=
      natBytesAux_natValue d hdlt hdhead 44 (by omega)
    rw [henc]
    rw [show b58decodeBytes ⟨List.replicate z '1'
        ++ (natDigitsAux 58 64 (natValue 256 d)).map b58charOfDigit⟩
        = match b58charsToDigits (List.replicate z '1'
            ++ (natDigitsAux 58 64 (natValue 256 d)).map b58charOfDigit) with
          | some ds2 => some (List.replicate
              ((List.takeWhile (fun c => c == '1')
                (List.replicate z '1'
                  ++ (natDigitsAux 58 64
                    (natValue 256 d)).map b58charOfDigit)).length) 0
              ++ natBytesAux 44 (natValue 58 ds2))
          | none => none
        from rfl]
    rw [hparse]
    simp only [htw, List.length_replicate, hveq, hbytes, hbs]

theorem cidCodecByte_lt (codec : String) : cidCodecByte codec < 256 := by
  unfold cidCodecByte
  split_ifs <;> omega

theorem detect_arc_standard_mem (arc69Check : String → Bool)
    (p : AssetParams) :
    detect_arc_standard arc69Check p
      ∈ ["arc19", "arc69", "standard_ipfs", "potential_cid", "unknown"] := by
  unfold detect_arc_standard
  split_ifs <;> simp

theorem alookup_isSome_iff {β : Type} (l : List (String × β)) (c : String) :
    (alookup l c).isSome ↔ c ∈ l.map Prod.fst := by
  rcases h : alookup l c with _ | v
  · rw [alookup_eq_none_iff] at h
    simp [h]
  · have : c ∈ l.map Prod.fst := by
      by_contra hc
      rw [← alookup_eq_none_iff] at hc
      rw [hc] at h
      exact Option.noConfusion h
    simp [this]

theorem processPin_found_lookup (targets : List String) (st : VState)
    (p : PinEntry) (c : String) :
    alookup (processPin targets st p).found c =
      match alookup st.found c with
      | some v => some v
      | none =>
        if c ∈ targets ∧ p.cid = c then some p.status else none := by
  unfold processPin
  by_cases hct : p.cid ∈ targets
  · rw [if_pos hct]
    rcases hl : alookup st.found p.cid with _ | v
    · simp only [hl]
      rw [alookup_append]
      rcases hc : alookup st.found c with _ | w
      · by_cases hpc : p.cid = c
        · subst hpc
          rw [if_pos ⟨hct, rfl⟩]
          simp [alookup]
        · rw [if_neg (by tauto)]
          simp [alookup, hpc]
      · simp
    · simp only [hl]
      rcases hc : alookup st.found c with _ | w
      · by_cases hpc : p.cid = c
        · subst hpc
          rw [hc] at hl
          exact Option.noConfusion hl
        · rw [if_neg (by tauto)]
      · simp
  · rw [if_neg hct]
    rcases hc : alookup st.found c with _ | w
    · by_cases hpc : p.cid = c
      · subst hpc
        rw [if_neg (by tauto)]
      · rw [if_neg (by tauto)]
    · simp

theorem firstStatusIn_cons_self (p : PinEntry) (rest : List PinEntry) :
    firstStatusIn (p :: rest) p.cid = some p.status := by
  simp only [firstStatusIn]
  rw [List.find?_cons_of_pos _ (by simp)]
  rfl

theorem firstStatusIn_cons_ne (p : PinEntry) (rest : List PinEntry)
    (c : String) (h : p.cid ≠ c) :
    firstStatusIn (p :: rest) c = firstStatusIn rest c := by
  simp only [firstStatusIn]
  rw [List.find?_cons_of_neg _ (by simp [h])]

theorem processPage_found_lookup (targets : List String) :
    ∀ (page : List PinEntry) (st : VState) (c : String),
      alookup (processPage targets st page).found c =
        match alookup st.found c with
        | some v => some v
        | none =>
          if c ∈ targets then firstStatusIn page c else none := by
  intro page
  induction page with
  | nil =>
    intro st c
    show alookup st.found c = _
    rcases alookup st.found c with _ | v
    · simp [firstStatusIn]
    · simp
  | cons p rest ih =>
    intro st c
    show alookup (processPage targets (processPin targets st p) rest).found c
      = _
    rw [ih (processPin targets st p) c, processPin_found_lookup]
    rcases hc : alookup st.found c with _ | w
    · by_cases hpc : p.cid = c
      · subst hpc
        by_cases hct : p.cid ∈ targets
        · simp [hct, firstStatusIn_cons_self]
        · simp [hct]
      · have hfs := firstStatusIn_cons_ne p rest c hpc
        simp [hpc, hfs]
    · simp

theorem processPin_wf (targets : List String) (st : VState) (p : PinEntry)
    (h : FoundWF targets st) : FoundWF targets (processPin targets st p) := by
  unfold processPin
  by_cases hct : p.cid ∈ targets
  · rw [if_pos hct]
    rcases hl : alookup st.found p.cid with _ | v
    · constructor
      · show (List.map Prod.fst (st.found ++ [(p.cid, p.status)])).Nodup
        rw [List.map_append]
        simp only [List.map_cons, List.map_nil]
        rw [List.nodup_append]
        refine ⟨h.1, by simp, ?_⟩
        intro a ha
        simp only [List.mem_cons, List.not_mem_nil, or_false]
        intro hb
        subst hb
        rw [alookup_eq_none_iff] at hl
        exact hl ha
      · show ∀ k ∈ List.map Prod.fst (st.found ++ [(p.cid, p.status)]), _
        intro k hk
        rw [List.map_append] at hk
        rcases List.mem_append.mp hk with h1 | h2
        · exact h.2 k h1
        · simp at h2
          subst h2
          exact hct
    · exact h
  · rw [if_neg hct]
    exact h

theorem processPage_wf (targets : List String) :
    ∀ (page : List PinEntry) (st : VState), FoundWF targets st →
      FoundWF targets (processPage targets st page) := by
  intro page
  induction page with
  | nil => intro st h; exact h
  | cons p rest ih =>
    intro st h
    exact ih (processPin targets st p) (processPin_wf targets st p h)

theorem found_all_of_le {targets : List String} {st : VState}
    (hwf : FoundWF targets st)
    (hle : (dedupKeep targets).length ≤ st.found.length) :
    ∀ c ∈ targets, (alookup st.found c).isSome := by
  intro c hc
  have hsub : st.found.map Prod.fst ⊆ dedupKeep targets := by
    intro a ha
    exact mem_dedupKeep.mpr (hwf.2 a ha)
  have hsp := (hwf.1).subperm hsub
  have hlen : st.found.length = (st.found.map Prod.fst).length := by simp
  have hperm := hsp.perm_of_length_le (by omega)
  rw [alookup_isSome_iff]
  exact hperm.mem_iff.mpr (mem_dedupKeep.mpr hc)

theorem le_of_found_all {targets : List String} {st : VState}
    (hwf : FoundWF targets st)
    (hall : ∀ c ∈ targets, (alookup st.found c).isSome) :
    (dedupKeep targets).length ≤ st.found.length := by
  have hsub : dedupKeep targets ⊆ st.found.map Prod.fst := by
    intro a ha
    have := hall a (mem_dedupKeep.mp ha)
    exact (alookup_isSome_iff _ _).mp this
  have := ((nodup_dedupKeep targets).subperm hsub).length_le
  simpa using this

theorem processPage_found_mono (targets : List String) (page : List PinEntry)
    (st : VState) (c : String)
    (h : (alookup st.found c).isSome) :
    (alookup (processPage targets st page).found c).isSome := by
  rw [processPage_found_lookup]
  rcases hc : alookup st.found c with _ | v
  · rw [hc] at h; simp at h
  · simp

theorem streamLoop_succ_unfold (targets : List String) (f : Nat)
    (remaining : List PinEntry) (st : VState) :
    streamLoop targets (f + 1) remaining st =
      if (dedupKeep targets).length ≤ st.found.length then (st, 0, 0)
      else
        if (remaining.take pageSize).isEmpty then (st, 0, 1)
        else
          if (dedupKeep targets).length
              ≤ (processPage targets st (remaining.take pageSize)).found.length
            then (processPage targets st (remaining.take pageSize), 1, 1)
          else if (remaining.take pageSize).length < pageSize then
            (processPage targets st (remaining.take pageSize), 1, 1)
          else
            ((streamLoop targets f (remaining.drop pageSize)
                (processPage targets st (remaining.take pageSize))).1,
             (streamLoop targets f (remaining.drop pageSize)
                (processPage targets st (remaining.take pageSize))).2.1 + 1,
             (streamLoop targets f (remaining.drop pageSize)
                (processPage targets st (remaining.take pageSize))).2.2 + 1)
    := rfl

theorem streamLoop_fetches_le_fuel (targets : List String) :
    ∀ (fuel : Nat) (remaining : List PinEntry) (st : VState),
      (streamLoop targets fuel remaining st).2.2 ≤ fuel := by
  intro fuel
  induction fuel with
  | zero => intro remaining st; exact Nat.le_refl 0
  | succ f ih =>
    intro remaining st
    rw [streamLoop_succ_unfold]
    split_ifs
    · exact Nat.zero_le _
    · exact Nat.succ_le_succ (Nat.zero_le f)
    · exact Nat.succ_le_succ (Nat.zero_le f)
    · exact Nat.succ_le_succ (Nat.zero_le f)
    · exact Nat.succ_le_succ (ih _ _)

theorem streamLoop_fetch_bound (targets : List String) :
    ∀ (fuel k : Nat) (remaining : List PinEntry) (st : VState),
      FoundWF targets st →
      (∀ c ∈ targets, (alookup st.found c).isSome ∨
        ∃ p ∈ remaining.take (pageSize * k), p.cid = c) →
      (streamLoop targets fuel remaining st).2.2 ≤ k := by
  intro fuel
  induction fuel with
  | zero => intro k remaining st _ _; simp [streamLoop]
  | succ f ih =>
    intro k remaining st hwf hcover
    by_cases hall : (dedupKeep targets).length ≤ st.found.length
    · simp [streamLoop, hall]
    · obtain ⟨c, hc, hnone⟩ : ∃ c ∈ targets, alookup st.found c = none := by
        by_contra hcon
        push_neg at hcon
        apply hall
        apply le_of_found_all hwf
        intro c hc
        rcases h : alookup st.found c with _ | v
        · exact absurd h (hcon c hc)
        · simp
      have hk1 : 1 ≤ k := by
        rcases hcover c hc with hs | ⟨p, hp, _⟩
        · rw [hnone] at hs; simp at hs
        · by_contra hk
          have : k = 0 := by omega
          subst this
          simp at hp
      rw [streamLoop_succ_unfold, if_neg hall]
      by_cases hempty : (remaining.take pageSize).isEmpty
      · rw [if_pos hempty]
        exact hk1
      · rw [if_neg hempty]
        by_cases hall2 : (dedupKeep targets).length
            ≤ (processPage targets st (remaining.take pageSize)).found.length
        · rw [if_pos hall2]
          exact hk1
        · rw [if_neg hall2]
          by_cases hshort : (remaining.take pageSize).length < pageSize
          · rw [if_pos hshort]
            exact hk1
          · rw [if_neg hshort]
            have hwf2 : FoundWF targets
                (processPage targets st (remaining.take pageSize)) :=
              processPage_wf targets _ st hwf
            have hcover2 : ∀ c2 ∈ targets,
                (alookup (processPage targets st
                    (remaining.take pageSize)).found c2).isSome ∨
                ∃ p ∈ (remaining.drop pageSize).take (pageSize * (k - 1)),
                  p.cid = c2 := by
              intro c2 hc2
              rcases hcover c2 hc2 with hs | ⟨p, hp, hpc⟩
              · exact Or.inl (processPage_found_mono targets _ st c2 hs)
              · have hsplitk : pageSize * k
                    = pageSize + pageSize * (k - 1) := by
                  conv_lhs => rw [← Nat.add_sub_cancel' hk1]
                  rw [Nat.mul_add, Nat.mul_one]
                rw [hsplitk, list_take_add] at hp
                rcases List.mem_append.mp hp with h1 | h2
                · refine Or.inl ?_
                  rw [processPage_found_lookup]
                  rcases hl : alookup st.found c2 with _ | v
                  · rw [if_pos hc2]
                    unfold firstStatusIn
                    rcases hfind : List.find? (fun p2 => p2.cid == c2)
                        (remaining.take pageSize) with _ | q
                    · exfalso
                      have := List.find?_eq_none.mp hfind p h1
                      simp [hpc] at this
                    · simp only [hfind]
                      simp
                  · simp
                · exact Or.inr ⟨p, h2, hpc⟩
            have hrec := ih (k - 1) (remaining.drop pageSize)
              (processPage targets st (remaining.take pageSize)) hwf2 hcover2
            show (streamLoop targets f (remaining.drop pageSize)
                (processPage targets st (remaining.take pageSize))).2.2 + 1 ≤ k
            omega

theorem firstStatusIn_append (l1 l2 : List PinEntry) (c : String) :
    firstStatusIn (l1 ++ l2) c =
      match firstStatusIn l1 c with
      | some s => some s
      | none => firstStatusIn l2 c := by
  simp only [firstStatusIn, List.find?_append]
  cases h1 : List.find? (fun p => p.cid == c) l1 with
  | none => rfl
  | some q => rfl

theorem streamLoop_zero (targets : List String) (remaining : List PinEntry)
    (st : VState) : streamLoop targets 0 remaining st = (st, 0, 0) := rfl

theorem streamLoop_found_lookup (targets : List String) :
    ∀ (fuel : Nat) (remaining : List PinEntry) (st : VState) (c : String),
      alookup (streamLoop targets fuel remaining st).1.found c =
        match alookup st.found c with
        | some v => some v
        | none =>
          if c ∈ targets then
            firstStatusIn (remaining.take
              (pageSize * (streamLoop targets fuel remaining st).2.1)) c
          else none := by
  intro fuel
  induction fuel with
  | zero =>
    intro remaining st c
    rw [streamLoop_zero]
    rcases h : alookup st.found c with _ | v
    · simp [h, firstStatusIn]
    · simp [h]
  | succ f ih =>
    intro remaining st c
    rw [streamLoop_succ_unfold]
    by_cases hall : (dedupKeep targets).length ≤ st.found.length
    · rw [if_pos hall]
      rcases h : alookup st.found c with _ | v
      · simp [h, firstStatusIn]
      · simp [h]
    · rw [if_neg hall]
      by_cases hempty : (remaining.take pageSize).isEmpty
      · rw [if_pos hempty]
        rcases h : alookup st.found c with _ | v
        · simp [h, firstStatusIn]
        · simp [h]
      · rw [if_neg hempty]
        by_cases hall2 : (dedupKeep targets).length
            ≤ (processPage targets st (remaining.take pageSize)).found.length
        · rw [if_pos hall2]
          show alookup (processPage targets st
              (remaining.take pageSize)).found c =
            match alookup st.found c with
            | some v => some v
            | none =>
              if c ∈ targets then
                firstStatusIn (remaining.take (pageSize * 1)) c
              else none
          rw [Nat.mul_one]
          exact processPage_found_lookup targets (remaining.take pageSize) st c
        · rw [if_neg hall2]
          by_cases hshort : (remaining.take pageSize).length < pageSize
          · rw [if_pos hshort]
            show alookup (processPage targets st
                (remaining.take pageSize)).found c =
              match alookup st.found c with
              | some v => some v
              | none =>
                if c ∈ targets then
                  firstStatusIn (remaining.take (pageSize * 1)) c
                else none
            rw [Nat.mul_one]
            exact processPage_found_lookup targets (remaining.take pageSize)
              st c
          · rw [if_neg hshort]
            show alookup (streamLoop targets f (remaining.drop pageSize)
                (processPage targets st (remaining.take pageSize))).1.found c
              = match alookup st.found c with
                | some v => some v
                | none =>
                  if c ∈ targets then
                    firstStatusIn (remaining.take
                      (pageSize * ((streamLoop targets f
                        (remaining.drop pageSize)
                        (processPage targets st
                          (remaining.take pageSize))).2.1 + 1))) c
                  else none
            rw [ih (remaining.drop pageSize)
              (processPage targets st (remaining.take pageSize)) c,
              processPage_found_lookup]
            have htk : remaining.take (pageSize *
                ((streamLoop targets f (remaining.drop pageSize)
                  (processPage targets st (remaining.take pageSize))).2.1 + 1))
                = remaining.take pageSize
                  ++ (remaining.drop pageSize).take (pageSize *
                    (streamLoop targets f (remaining.drop pageSize)
                      (processPage targets st
                        (remaining.take pageSize))).2.1) := by
              rw [Nat.mul_add, Nat.mul_one, Nat.add_comm, list_take_add]
            rw [htk, firstStatusIn_append]
            rcases h : alookup st.found c with _ | v
            · by_cases hct : c ∈ targets
              · simp [hct]
              · simp [hct]
            · simp

theorem streamLoop_end (targets : List String) :
    ∀ (fuel : Nat) (remaining : List PinEntry) (st : VState),
      (dedupKeep targets).length
          ≤ (streamLoop targets fuel remaining st).1.found.length ∨
      remaining.length
          ≤ pageSize * (streamLoop targets fuel remaining st).2.1 ∨
      fuel ≤ (streamLoop targets fuel remaining st).2.1 := by
  intro fuel
  induction fuel with
  | zero => intro remaining st; right; right; exact Nat.le_refl 0
  | succ f ih =>
    intro remaining st
    rw [streamLoop_succ_unfold]
    by_cases hall : (dedupKeep targets).length ≤ st.found.length
    · rw [if_pos hall]; exact Or.inl hall
    · rw [if_neg hall]
      by_cases hempty : (remaining.take pageSize).isEmpty
      · rw [if_pos hempty]
        right; left
        have htake0 : remaining.take pageSize = [] := by
          simpa using hempty
        have hrem : remaining = [] := by
          rcases List.take_eq_nil_iff.mp htake0 with h | h
          · exact absurd h (by simp [pageSize])
          · exact h
        rw [hrem]
        simp
      · rw [if_neg hempty]
        by_cases hall2 : (dedupKeep targets).length
            ≤ (processPage targets st (remaining.take pageSize)).found.length
        · rw [if_pos hall2]; exact Or.inl hall2
        · rw [if_neg hall2]
          by_cases hshort : (remaining.take pageSize).length < pageSize
          · rw [if_pos hshort]
            right; left
            rw [List.length_take] at hshort
            show remaining.length ≤ pageSize * 1
            omega
          · rw [if_neg hshort]
            rcases ih (remaining.drop pageSize)
              (processPage targets st (remaining.take pageSize))
              with h1 | h2 | h3
            · exact Or.inl h1
            · right; left
              rw [List.length_drop] at h2
              show remaining.length ≤ pageSize *
                ((streamLoop targets f (remaining.drop pageSize)
                  (processPage targets st (remaining.take pageSize))).2.1 + 1)
              rw [Nat.mul_add, Nat.mul_one]
              omega
            · right; right
              show f + 1 ≤ (streamLoop targets f (remaining.drop pageSize)
                (processPage targets st (remaining.take pageSize))).2.1 + 1
              omega

theorem streamLoop_wf (targets : List String) :
    ∀ (fuel : Nat) (remaining : List PinEntry) (st : VState),
      FoundWF targets st →
      FoundWF targets (streamLoop targets fuel remaining st).1 := by
  intro fuel
  induction fuel with
  | zero => intro remaining st h; exact h
  | succ f ih =>
    intro remaining st h
    rw [streamLoop_succ_unfold]
    split_ifs
    · exact h
    · exact h
    · exact processPage_wf targets _ st h
    · exact processPage_wf targets _ st h
    · exact ih (remaining.drop pageSize) _ (processPage_wf targets _ st h)

theorem firstStatusIn_extendRight {l1 l2 : List PinEntry} {c : String}
    {s : String} (h : firstStatusIn l1 c = some s) :
    firstStatusIn (l1 ++ l2) c = some s := by
  rw [firstStatusIn_append, h]

theorem firstStatusIn_take_none {l : List PinEntry} {c : String} (n : Nat)
    (h : firstStatusIn l c = none) : firstStatusIn (l.take n) c = none := by
  have hf : List.find? (fun p => p.cid == c) l = none := by
    rcases hfind : List.find? (fun p => p.cid == c) l with _ | q
    · exact hfind
    · unfold firstStatusIn at h
      rw [hfind] at h
      simp at h
  have hft : List.find? (fun p => p.cid == c) (l.take n) = none := by
    rw [List.find?_eq_none]
    intro x hx
    exact List.find?_eq_none.mp hf x (List.mem_of_mem_take hx)
  unfold firstStatusIn
  rw [hft]
  rfl

theorem mergeFold_no_pos (found : List (String × String))
    (lst : List (String × Bool × String))
    (h : ∀ r ∈ lst, r.2.1 = false) :
    lst.foldl (fun f r2 => if r2.2.1 then f ++ [(r2.1, r2.2.2)] else f) found
      = found := by
  induction lst generalizing found with
  | nil => rfl
  | cons x t ih =>
    have hx : x.2.1 = false := h x (by simp)
    show List.foldl _ (if x.2.1 then found ++ [(x.1, x.2.2)] else found) t
      = found
    rw [hx]
    simp only [Bool.false_eq_true, if_false]
    exact ih found (fun r hr => h r (by simp [hr]))

theorem detailOf_cid (found2 : List (String × String)) (c : String) :
    (detailOf found2 c).cid = c := by
  unfold detailOf
  rcases alookup found2 c with _ | s <;> rfl

theorem buildFold_char (found2 : List (String × String)) :
    ∀ (cids : List String) (n : Nat) (acc : List VerifyDetail),
      cids.foldl (fun acc2 c =>
        match alookup found2 c with
        | some s =>
          (acc2.1 + (if validStatuses.contains s then 1 else 0),
           acc2.2 ++ [⟨c, validStatuses.contains s⟩])
        | none => (acc2.1, acc2.2 ++ [⟨c, false⟩])) (n, acc)
      = (n + ((cids.map (detailOf found2)).filter
            (fun d => d.isPinned)).length,
         acc ++ cids.map (detailOf found2)) := by
  intro cids
  induction cids with
  | nil => intro n acc; simp
  | cons c t ih =>
    intro n acc
    rw [List.foldl_cons]
    rcases hl : alookup found2 c with _ | s
    · simp only [hl]
      rw [ih n (acc ++ [({ cid := c, isPinned := false } : VerifyDetail)])]
      have hdet : detailOf found2 c = ⟨c, false⟩ := by
        unfold detailOf
        rw [hl]
      simp only [List.map_cons, hdet, List.filter_cons]
      simp
    · simp only [hl]
      rw [ih (n + (if validStatuses.contains s then 1 else 0))
        (acc ++ [({ cid := c, isPinned := validStatuses.contains s }
          : VerifyDetail)])]
      have hdet : detailOf found2 c = ⟨c, validStatuses.contains s⟩ := by
        unfold detailOf
        rw [hl]
      simp only [List.map_cons, hdet, List.filter_cons]
      by_cases hv : s ∈ validStatuses
      · simp [hv]
        omega
      · simp [hv]

theorem occCount_append_single (pins : List Pin4) (p : Pin4) (c : String) :
    occCount (pins ++ [p]) c
      = occCount pins c + (if p.cid = c then 1 else 0) := by
  unfold occCount
  rw [List.countP_append]
  congr 1
  by_cases h : p.cid = c
  · simp [h, List.countP_cons]
  · simp [h, List.countP_cons]

theorem nonemptyCids_append_single (pins : List Pin4) (p : Pin4) :
    nonemptyCids (pins ++ [p])
      = nonemptyCids pins ++ (if p.cid = "" then [] else [p.cid]) := by
  unfold nonemptyCids
  rw [List.map_append, List.filter_append]
  congr 1
  by_cases h : p.cid = "" <;> simp [h]

theorem mem_nonemptyCids {pins : List Pin4} {c : String} :
    c ∈ nonemptyCids pins ↔ (c ≠ "" ∧ 0 < occCount pins c) := by
  unfold nonemptyCids occCount
  rw [List.mem_filter, List.countP_pos]
  constructor
  · rintro ⟨h1, h2⟩
    rcases List.mem_map.mp h1 with ⟨p, hp, rfl⟩
    exact ⟨by simpa using h2, ⟨p, hp, by simp⟩⟩
  · rintro ⟨h1, p, hp, hpc⟩
    refine ⟨List.mem_map.mpr ⟨p, hp, by simpa using hpc⟩, by simpa using h1⟩

theorem fullScan_counts (pins : List Pin4) :
    (fullScanAnalyze pins).counts
      = (dedupKeep (nonemptyCids pins)).map
          (fun c => (c, occCount pins c)) := by
  induction pins using List.reverseRecOn with
  | nil => rfl
  | append_singleton ps p ih =>
    have hstep : fullScanAnalyze (ps ++ [p])
        = fullScanStep (fullScanAnalyze ps) p := by
      unfold fullScanAnalyze
      rw [List.foldl_append]
      rfl
    rw [hstep]
    by_cases hp : p.cid = ""
    · rw [show fullScanStep (fullScanAnalyze ps) p = fullScanAnalyze ps by
        unfold fullScanStep; rw [if_pos hp]]
      rw [ih, nonemptyCids_append_single, if_pos hp, List.append_nil]
      apply List.map_congr_left
      intro c hc
      have hcne : c ≠ "" := by
        rcases mem_nonemptyCids.mp (mem_dedupKeep.mp hc) with ⟨h1, _⟩
        exact h1
      rw [occCount_append_single, if_neg (by rw [hp]; exact Ne.symm hcne)]
      simp
    · by_cases hmem : p.cid ∈ dedupKeep (nonemptyCids ps)
      · have hsome : alookup (fullScanAnalyze ps).counts p.cid
            = some (occCount ps p.cid) := by
          rw [ih, alookup_map_self, if_pos hmem]
        have hcounts : (fullScanStep (fullScanAnalyze ps) p).counts
            = (fullScanAnalyze ps).counts.map (fun kv =>
                if kv.1 = p.cid then (kv.1, kv.2 + 1) else kv) := by
          unfold fullScanStep
          rw [if_neg hp, hsome]
          split_ifs <;> rfl
        rw [hcounts, ih, nonemptyCids_append_single, if_neg hp,
          dedupKeep_append_single, if_pos (mem_dedupKeep.mp hmem),
          List.map_map]
        apply List.map_congr_left
        intro c hc
        by_cases hcp : c = p.cid
        · subst hcp
          simp [occCount_append_single]
        · simp [Function.comp_apply, hcp, occCount_append_single,
            Ne.symm hcp]
      · have hnone2 : alookup (fullScanAnalyze ps).counts p.cid = none := by
          rw [ih, alookup_map_self, if_neg hmem]
        have hcounts : (fullScanStep (fullScanAnalyze ps) p).counts
            = (fullScanAnalyze ps).counts ++ [(p.cid, 1)] := by
          unfold fullScanStep
          rw [if_neg hp, hnone2]
          split_ifs <;> rfl
        rw [hcounts, ih, nonemptyCids_append_single, if_neg hp,
          dedupKeep_append_single,
          if_neg (fun hx => hmem (mem_dedupKeep.mpr hx)),
          List.map_append]
        congr 1
        · apply List.map_congr_left
          intro c hc
          have hcp : c ≠ p.cid := fun hx => hmem (hx ▸ hc)
          rw [occCount_append_single, if_neg (Ne.symm hcp)]
          simp
        · have hocc0 : occCount ps p.cid = 0 := by
            by_contra hx
            have hmm : p.cid ∈ nonemptyCids ps :=
              mem_nonemptyCids.mpr ⟨hp, Nat.pos_of_ne_zero hx⟩
            exact hmem (mem_dedupKeep.mpr hmm)
          simp [occCount_append_single, hocc0]

theorem sum_ge_length (l : List Nat) (h : ∀ x ∈ l, 1 ≤ x) :
    l.length ≤ l.sum := by
  induction l with
  | nil => simp
  | cons x t ih =>
    have hx := h x (by simp)
    have ht := ih (fun y hy => h y (by simp [hy]))
    simp only [List.length_cons, List.sum_cons]
    omega

theorem sum_map_sub_one (l : List Nat) (h : ∀ x ∈ l, 1 ≤ x) :
    (l.map (fun x => x - 1)).sum = l.sum - l.length := by
  induction l with
  | nil => simp
  | cons x t ih =>
    have hx := h x (by simp)
    have ht := ih (fun y hy => h y (by simp [hy]))
    have hge := sum_ge_length t (fun y hy => h y (by simp [hy]))
    simp only [List.map_cons, List.sum_cons, List.length_cons]
    omega

/-! ### Characterization of the streaming verifier results. -/

theorem stream_verify_details_eq (cids : List String)
    (inventory : List PinEntry) :
    (stream_verify_cids cids inventory).details
      = cids.map (detailOf (svFound2 cids inventory)) := by
  show (svBuild cids inventory).2 = _
  unfold svBuild
  rw [buildFold_char]
  simp

theorem stream_verify_verified_eq (cids : List String)
    (inventory : List PinEntry) :
    (stream_verify_cids cids inventory).verifiedCount
      = ((cids.map (detailOf (svFound2 cids inventory))).filter
          (fun d => d.isPinned)).length := by
  show (svBuild cids inventory).1 = _
  unfold svBuild
  rw [buildFold_char]
  simp

theorem stream_verify_loopFetches_eq (cids : List String)
    (inventory : List PinEntry) :
    (stream_verify_cids cids inventory).loopFetches
      = (svLoop cids inventory).2.2 := rfl

theorem svLoop_wf (cids : List String) (inventory : List PinEntry) :
    FoundWF cids (svLoop cids inventory).1 :=
  streamLoop_wf cids (maxPagesFor cids.length) inventory ⟨[], []⟩
    ⟨by simp, by simp⟩

theorem svLoop_lookup (cids : List String) (inventory : List PinEntry)
    (c : String) :
    alookup (svLoop cids inventory).1.found c
      = if c ∈ cids then
          firstStatusIn
            (inventory.take (pageSize * (svLoop cids inventory).2.1)) c
        else none :=
  streamLoop_found_lookup cids (maxPagesFor cids.length) inventory ⟨[], []⟩ c

theorem svLoop_found_none (cids : List String) (inventory : List PinEntry)
    (hlen : inventory.length < pageSize * maxPagesFor cids.length)
    (c : String) (hc : c ∈ cids)
    (hnone : alookup (svLoop cids inventory).1.found c = none) :
    firstStatusIn inventory c = none := by
  have hwf := svLoop_wf cids inventory
  have hnotall : ¬ ((dedupKeep cids).length
      ≤ (svLoop cids inventory).1.found.length) := by
    intro hle
    have hs := found_all_of_le hwf hle c hc
    rw [hnone] at hs
    simp at hs
  have hcover : inventory.length
      ≤ pageSize * (svLoop cids inventory).2.1 := by
    rcases streamLoop_end cids (maxPagesFor cids.length) inventory ⟨[], []⟩
      with h1 | h2 | h3
    · exact absurd h1 hnotall
    · exact h2
    · refine Nat.le_of_lt ?_
      calc inventory.length < pageSize * maxPagesFor cids.length := hlen
        _ ≤ pageSize * (svLoop cids inventory).2.1 :=
            Nat.mul_le_mul_left _ h3
  have htk : inventory.take (pageSize * (svLoop cids inventory).2.1)
      = inventory := List.take_of_length_le hcover
  have h := svLoop_lookup cids inventory c
  rw [if_pos hc, htk, hnone] at h
  exact h.symm

theorem svLoop_found_some (cids : List String) (inventory : List PinEntry)
    (c s : String)
    (hsome : alookup (svLoop cids inventory).1.found c = some s) :
    firstStatusIn inventory c = some s := by
  have h := svLoop_lookup cids inventory c
  rw [hsome] at h
  by_cases hc : c ∈ cids
  · rw [if_pos hc] at h
    have hpre := @firstStatusIn_extendRight _
      (inventory.drop (pageSize * (svLoop cids inventory).2.1)) _ _ h.symm
    rwa [List.take_append_drop] at hpre
  · rw [if_neg hc] at h
    exact absurd h (by simp)

theorem svFound2_eq_of_small (cids : List String) (inventory : List PinEntry)
    (hlen : inventory.length < pageSize * maxPagesFor cids.length) :
    svFound2 cids inventory = (svLoop cids inventory).1.found := by
  unfold svFound2
  by_cases hcond : svMissing cids inventory ≠ []
      ∧ maxPagesFor cids.length ≤ (svLoop cids inventory).2.1
  · rw [if_pos hcond]
    apply mergeFold_no_pos
    intro r hr
    unfold individualLookupLimited at hr
    rcases List.mem_append.mp hr with h1 | h2
    · rcases List.mem_map.mp h1 with ⟨c2, hc2, rfl⟩
      have hc2m : c2 ∈ svMissing cids inventory := List.mem_of_mem_take hc2
      have hc2cids : c2 ∈ cids := (List.mem_filter.mp hc2m).1
      have hc2none : alookup (svLoop cids inventory).1.found c2 = none := by
        have hf := (List.mem_filter.mp hc2m).2
        rcases hx : alookup (svLoop cids inventory).1.found c2 with _ | v
        · rfl
        · rw [hx] at hf
          simp at hf
      have hfsn : firstStatusIn inventory c2 = none :=
        svLoop_found_none cids inventory hlen c2 hc2cids hc2none
      have hfind : List.find? (fun p => p.cid == c2) (inventory.take 200)
          = none := by
        have h200 := firstStatusIn_take_none 200 hfsn
        rcases hx : List.find? (fun p => p.cid == c2) (inventory.take 200)
          with _ | q
        · exact hx
        · unfold firstStatusIn at h200
          rw [hx] at h200
          simp at h200
      simp [hfind]
    · rcases List.mem_map.mp h2 with ⟨c2, hc2, rfl⟩
      rfl
  · rw [if_neg hcond]

/-! ### The claims. -/

/-- C1: for an ARC-19 template asset with version 1 and a decoded 32-byte
digest, the produced CID is exactly the multibase base32 encoding of
0x01, the codec byte (0x55 raw, 0x70 dag-pb, 0x71 dag-cbor, 0x55
otherwise), then the 0x12 0x20 sha2-256 framing and the digest,
regardless of the declared hash type, and decoding the CIDv1 string
recovers the same codec byte and digest bytes. -/
theorem arc19_v1_cid_roundtrip (codec hashType : String) (digest : List Nat)
    (hlen : digest.length = 32) (hbytes : ∀ b ∈ digest, b < 256) :
    extract_arc19_cid_construct 1 codec hashType digest
      = multibaseB32 (0x01 :: cidCodecByte codec :: 0x12 :: 0x20 :: digest) ∧
    decodeCidV1 (extract_arc19_cid_construct 1 codec hashType digest)
      = some (cidCodecByte codec, digest) ∧
    cidCodecByte "raw" = 0x55 ∧ cidCodecByte "dag-pb" = 0x70 ∧
    cidCodecByte "dag-cbor" = 0x71 ∧
    (codec ∉ (["raw", "dag-pb", "dag-cbor"] : List String) →
      cidCodecByte codec = 0x55) := by
  have hb : ∀ b ∈ (0x01 :: cidCodecByte codec :: 0x12 :: 0x20 :: digest),
      b < 256 := by
    intro b hbm
    rcases List.mem_cons.mp hbm with rfl | hbm
    · omega
    · rcases List.mem_cons.mp hbm with rfl | hbm
      · exact cidCodecByte_lt codec
      · rcases List.mem_cons.mp hbm with rfl | hbm
        · omega
        · rcases List.mem_cons.mp hbm with rfl | hbm
          · omega
          · exact hbytes b hbm
  have henc : extract_arc19_cid_construct 1 codec hashType digest
      = multibaseB32 (0x01 :: cidCodecByte codec :: 0x12 :: 0x20 :: digest)
      := by
    unfold extract_arc19_cid_construct
    rw [if_pos rfl]
    by_cases hh : hashType = "sha2-256"
    · rw [if_pos hh]
    · rw [if_neg hh]
  refine ⟨henc, ?_, rfl, rfl, rfl, ?_⟩
  · rw [henc]
    unfold decodeCidV1
    rw [decodeMultibaseB32_multibaseB32 _ hb]
    show (if (1 : Nat) = 1 ∧ (18 : Nat) = 0x12 ∧ (32 : Nat) = 0x20
        ∧ digest.length = 32 then some (cidCodecByte codec, digest)
      else none) = some (cidCodecByte codec, digest)
    rw [if_pos ⟨rfl, rfl, rfl, hlen⟩]
  · intro hcm
    simp only [List.mem_cons, List.not_mem_nil, or_false, not_or] at hcm
    unfold cidCodecByte
    rw [if_neg hcm.1, if_neg hcm.2.1, if_neg hcm.2.2]

set_option maxRecDepth 8000 in
theorem arc19_v1_cid_roundtrip_witness :
    decodeCidV1 (extract_arc19_cid_construct 1 "dag-pb" "sha2-512"
      (List.range 32)) = some (0x70, List.range 32) := by
  have h := arc19_v1_cid_roundtrip "dag-pb" "sha2-512" (List.range 32)
    (by decide) (by decide)
  rw [h.2.1, h.2.2.2.1]

/-- C2: for an ARC-19 template asset with version 0 and a decoded 32-byte
digest, the produced CID is exactly the base58 encoding of the raw 32
digest bytes: decoding it back yields the digest itself, so there is no
leading version or codec byte and no 0x12 0x20 multihash prefix. -/
theorem arc19_v0_cid_base58 (codec hashType : String) (digest : List Nat)
    (hlen : digest.length = 32) (hbytes : ∀ b ∈ digest, b < 256) :
    extract_arc19_cid_construct 0 codec hashType digest
      = b58encode digest ∧
    b58decodeBytes (extract_arc19_cid_construct 0 codec hashType digest)
      = some digest := by
  have henc : extract_arc19_cid_construct 0 codec hashType digest
      = b58encode digest := by
    unfold extract_arc19_cid_construct
    rw [if_neg (by omega)]
  refine ⟨henc, ?_⟩
  rw [henc]
  exact b58decodeBytes_b58encode digest hbytes (by omega)

set_option maxRecDepth 8000 in
theorem arc19_v0_cid_base58_witness :
    b58decodeBytes (extract_arc19_cid_construct 0 "dag-pb" "sha2-256"
      (List.range 32)) = some (List.range 32) :=
  (arc19_v0_cid_base58 "dag-pb" "sha2-256" (List.range 32)
    (by decide) (by decide)).2

/-- C3: an asset whose URL starts with template-ipfs:// is classified
arc19 and not arc69, even when its reserve field passes the ARC-69
base64-JSON test, for every possible behavior of that test. -/
theorem arc19_detection_precedence (arc69Check : String → Bool)
    (p : AssetParams)
    (hurl : strStartsWith p.url "template-ipfs://" = true)
    (hres : arc69Check p.reserve = true) :
    detect_arc_standard arc69Check p = "arc19" ∧
    detect_arc_standard arc69Check p ≠ "arc69" := by
  have h : detect_arc_standard arc69Check p = "arc19" := by
    unfold detect_arc_standard
    rw [if_pos hurl]
  exact ⟨h, by rw [h]; decide⟩

set_option maxRecDepth 8000 in
theorem arc19_detection_precedence_witness :
    detect_arc_standard (fun _ => true)
      ⟨"template-ipfs://\x7bipfscid:1:raw:reserve:sha2-256\x7d", "",
        "eyJuYW1lIjoieCJ9"⟩ = "arc19" :=
  (arc19_detection_precedence (fun _ => true) _ (by decide) rfl).1

theorem filter_map_comm {α β : Type} (l : List α) (f : α → β)
    (p : β → Bool) :
    (l.map f).filter p = (l.filter (fun a => p (f a))).map f := by
  induction l with
  | nil => rfl
  | cons x t ih =>
    simp only [List.map_cons, List.filter_cons]
    by_cases h : p (f x)
    · simp [h, ih]
    · simp [h, ih]

/-- C4: the full-scan duplicate report satisfies the invariant
total_duplicates = sum of (count - 1) over every CID occurring more than
once, and its details map has exactly the (nonempty) CIDs whose
occurrence count exceeds one as keys. -/
theorem full_duplicate_report_invariant (pins : List Pin4) :
    (get_pin_lookup_with_duplicates pins).2.totalDuplicates
      = specTotalDuplicates pins ∧
    ∀ c, c ∈ ((get_pin_lookup_with_duplicates pins).2.details.map Prod.fst)
      ↔ (c ≠ "" ∧ 1 < occCount pins c) := by
  have hc := fullScan_counts pins
  have hdup : (fullScanAnalyze pins).counts.filter (fun kv => 1 < kv.2)
      = ((dedupKeep (nonemptyCids pins)).filter
          (fun c => 1 < occCount pins c)).map
        (fun c => (c, occCount pins c)) := by
    rw [hc, filter_map_comm]
  constructor
  · show ((((fullScanAnalyze pins).counts.filter
        (fun kv => 1 < kv.2)).map (fun kv => kv.2)).sum
      - ((fullScanAnalyze pins).counts.filter
        (fun kv => 1 < kv.2)).length)
      = specTotalDuplicates pins
    rw [hdup, List.map_map, List.length_map]
    unfold specTotalDuplicates
    have hmaps : ((dedupKeep (nonemptyCids pins)).filter
        (fun c => 1 < occCount pins c)).map
          (fun c => occCount pins c - 1)
        = (((dedupKeep (nonemptyCids pins)).filter
            (fun c => 1 < occCount pins c)).map
          (fun c => occCount pins c)).map (fun x => x - 1) := by
      rw [List.map_map]
      rfl
    rw [hmaps, sum_map_sub_one _ (by
      intro x hx
      rcases List.mem_map.mp hx with ⟨c, hcf, rfl⟩
      have := List.of_mem_filter hcf
      simp only [decide_eq_true_eq] at this
      omega)]
    rw [List.length_map]
    rfl
  · intro c
    show c ∈ (((fullScanAnalyze pins).counts.filter
        (fun kv => 1 < kv.2)).map (fun kv =>
          (kv.1, (alookup (fullScanAnalyze pins).details kv.1).getD
            []))).map Prod.fst ↔ _
    rw [hdup, List.map_map, List.map_map]
    constructor
    · intro hmem
      rcases List.mem_map.mp hmem with ⟨c2, hc2, hq⟩
      have hq2 : c2 = c := by simpa using hq
      subst hq2
      have h1 := List.of_mem_filter hc2
      have h2 := List.mem_of_mem_filter hc2
      simp only [decide_eq_true_eq] at h1
      have h3 := mem_nonemptyCids.mp (mem_dedupKeep.mp h2)
      exact ⟨h3.1, h1⟩
    · rintro ⟨hne, hgt⟩
      refine List.mem_map.mpr ⟨c, ?_, by simp⟩
      apply List.mem_filter.mpr
      refine ⟨mem_dedupKeep.mpr (mem_nonemptyCids.mpr ⟨hne, by omega⟩), ?_⟩
      simpa using hgt

theorem full_duplicate_report_invariant_witness :
    (get_pin_lookup_with_duplicates
      [⟨"a", "pinned", "r1", "t1"⟩, ⟨"a", "failed", "r2", "t2"⟩,
       ⟨"b", "pinned", "r3", "t3"⟩]).2.totalDuplicates
      = specTotalDuplicates
        [⟨"a", "pinned", "r1", "t1"⟩, ⟨"a", "failed", "r2", "t2"⟩,
         ⟨"b", "pinned", "r3", "t3"⟩] :=
  (full_duplicate_report_invariant
    [⟨"a", "pinned", "r1", "t1"⟩, ⟨"a", "failed", "r2", "t2"⟩,
     ⟨"b", "pinned", "r3", "t3"⟩]).1

/-- C5: in a verification run whose remote inventory fits within the
size-dependent page budget, a target CID's detail entry is flagged
pinned exactly when the status of its first occurrence in the inventory
is one of pinned, queued, pinning, processing; a first-seen failed or
other status, or absence from the inventory, is reported as not
pinned. -/
theorem stream_verify_first_seen_status (cids : List String)
    (inventory : List PinEntry)
    (hlen : inventory.length < pageSize * maxPagesFor cids.length) :
    ∀ d ∈ (stream_verify_cids cids inventory).details,
      d.isPinned = isPinnedSpec inventory d.cid := by
  intro d hd
  rw [stream_verify_details_eq] at hd
  rcases List.mem_map.mp hd with ⟨c, hc, rfl⟩
  rw [svFound2_eq_of_small cids inventory hlen]
  unfold detailOf
  rcases hlk : alookup (svLoop cids inventory).1.found c with _ | s
  · have hfsn := svLoop_found_none cids inventory hlen c hc hlk
    simp [isPinnedSpec, hfsn]
  · have hfss := svLoop_found_some cids inventory c s hlk
    simp [isPinnedSpec, hfss]

theorem stream_verify_first_seen_status_witness :
    (VerifyDetail.mk "a" false).isPinned
      = isPinnedSpec [⟨"a", "failed"⟩, ⟨"a", "pinned"⟩]
          (VerifyDetail.mk "a" false).cid :=
  stream_verify_first_seen_status ["a", "b"]
    [⟨"a", "failed"⟩, ⟨"a", "pinned"⟩] (by decide)
    (VerifyDetail.mk "a" false) (by decide)

/-- C6: the streaming loop fetches at most k pages when every target CID
occurs within the first k pages of the inventory, and never more than
the size-dependent page cap: 50 pages for at most 500 targets, up to 500
pages for more than 2500 targets. -/
theorem stream_verify_page_fetch_bound (cids : List String)
    (inventory : List PinEntry) (k : Nat)
    (hk : ∀ c ∈ cids, ∃ p ∈ inventory.take (pageSize * k), p.cid = c) :
    (stream_verify_cids cids inventory).loopFetches ≤ k ∧
    (stream_verify_cids cids inventory).loopFetches
      ≤ maxPagesFor cids.length ∧
    (cids.length ≤ 500 →
      (stream_verify_cids cids inventory).loopFetches ≤ 50) ∧
    (2500 < cids.length →
      (stream_verify_cids cids inventory).loopFetches ≤ 500) := by
  have h1 : (svLoop cids inventory).2.2 ≤ k := by
    apply streamLoop_fetch_bound cids (maxPagesFor cids.length) k inventory
      ⟨[], []⟩ ⟨by simp, by simp⟩
    intro c hc
    exact Or.inr (hk c hc)
  have h2 : (svLoop cids inventory).2.2 ≤ maxPagesFor cids.length :=
    streamLoop_fetches_le_fuel cids (maxPagesFor cids.length) inventory
      ⟨[], []⟩
  rw [stream_verify_loopFetches_eq]
  refine ⟨h1, h2, ?_, ?_⟩
  · intro hle
    have hmp : maxPagesFor cids.length = 50 := by
      unfold maxPagesFor
      rw [if_pos hle]
    rw [hmp] at h2
    exact h2
  · intro hgt
    have hmp : maxPagesFor cids.length = 500 := by
      unfold maxPagesFor
      rw [if_neg (by omega), if_neg (by omega), if_neg (by omega)]
    rw [hmp] at h2
    exact h2

theorem stream_verify_page_fetch_bound_witness :
    (stream_verify_cids ["x"] [⟨"x", "pinned"⟩]).loopFetches ≤ 1 :=
  (stream_verify_page_fetch_bound ["x"] [⟨"x", "pinned"⟩] 1 (by decide)).1

/-- C10: verify_pinned_cids returns exactly one detail per input CID in
input order, a verified count equal to the number of pinned details
(hence at most the number of targets), a total equal to the number of
input CIDs, and for the empty input it returns zeros, no details, no
report, without issuing any remote request. -/
theorem verify_pinned_cids_shape (cids : List String)
    (inventory : List PinEntry) :
    ((verify_pinned_cids cids inventory).details.map VerifyDetail.cid
        = cids) ∧
    ((verify_pinned_cids cids inventory).verifiedCount
        = ((verify_pinned_cids cids inventory).details.filter
            (fun d => d.isPinned)).length) ∧
    (verify_pinned_cids cids inventory).verifiedCount ≤ cids.length ∧
    (verify_pinned_cids cids inventory).totalCount = cids.length ∧
    (cids = [] →
      verify_pinned_cids cids inventory
        = ⟨0, 0, [], none, 0⟩) := by
  by_cases hcids : cids.isEmpty
  · have hnil : cids = [] := by
      cases cids
      · rfl
      · simp [List.isEmpty] at hcids
    subst hnil
    refine ⟨rfl, rfl, Nat.le_refl 0, rfl, fun _ => rfl⟩
  · have hverify : verify_pinned_cids cids inventory
        = ⟨(stream_verify_cids cids inventory).verifiedCount, cids.length,
           (stream_verify_cids cids inventory).details,
           (stream_verify_cids cids inventory).report,
           (stream_verify_cids cids inventory).requests⟩ := by
      unfold verify_pinned_cids
      rw [if_neg hcids]
    rw [hverify]
    have hdet := stream_verify_details_eq cids inventory
    have hver := stream_verify_verified_eq cids inventory
    have hmapcid : (stream_verify_cids cids inventory).details.map
        VerifyDetail.cid = cids := by
      rw [hdet, List.map_map]
      have : (VerifyDetail.cid ∘ detailOf (svFound2 cids inventory))
          = fun c => c := by
        funext c
        exact detailOf_cid _ c
      rw [this, List.map_id']
    refine ⟨hmapcid, ?_, ?_, rfl, ?_⟩
    · rw [hver, hdet]
    · rw [hver]
      calc ((cids.map (detailOf (svFound2 cids inventory))).filter
            (fun d => d.isPinned)).length
          ≤ (cids.map (detailOf (svFound2 cids inventory))).length :=
            List.length_filter_le _ _
        _ = cids.length := List.length_map _ _
    · intro hnil
      subst hnil
      simp at hcids

theorem verify_pinned_cids_shape_witness :
    verify_pinned_cids [] ([] : List PinEntry)
      = ⟨0, 0, [], none, 0⟩ :=
  (verify_pinned_cids_shape [] []).2.2.2.2 rfl

/-- C7: a pending record becomes completed (with repin_cid equal to its
image CID) exactly when its image CID's pin outcome succeeded and its
metadata CID is absent, equal to the image CID, or succeeded itself;
otherwise it becomes failed with a non-empty error message joining one
fragment per failing CID. Each record's final state is a function of
that record and the pin results alone, so one asset's failure cannot
change another's status: in the example, A completes while B fails on
the shared image CID X. -/
theorem migrate_status_reconciliation :
    (∀ (pr : List (String × PinOutcome)) (rows : List CollectionRow)
        (i : Nat) (r : CollectionRow),
      rows[i]? = some r → r.status = "pending" →
      ((migrate_collection_statuses pr rows)[i]?
          = some (update_asset_status pr r)) ∧
      ((update_asset_status pr r).status = "completed" ↔
        ((migrateImageRes pr r.imageCid).success = true ∧
          (strTrim r.metadataCid = "" ∨ strTrim r.metadataCid = r.imageCid ∨
            (lookupPinResult pr (strTrim r.metadataCid)
              "Metadata CID not found in results").success = true))) ∧
      ((update_asset_status pr r).status = "completed" →
        (update_asset_status pr r).repinCid = r.imageCid) ∧
      ((update_asset_status pr r).status ≠ "completed" →
        (update_asset_status pr r).status = "failed" ∧
        migrateErrorParts (migrateImageRes pr r.imageCid)
            (migrateMetaRes pr r.imageCid (strTrim r.metadataCid))
            r.imageCid (strTrim r.metadataCid) ≠ [] ∧
        (update_asset_status pr r).errorMessage
          = String.intercalate "; "
              (migrateErrorParts (migrateImageRes pr r.imageCid)
                (migrateMetaRes pr r.imageCid (strTrim r.metadataCid))
                r.imageCid (strTrim r.metadataCid)))) ∧
    ((migrate_collection_statuses pinResultsC7 [rowA, rowB]).map
        CollectionRow.status = ["completed", "failed"] ∧
      (migrate_collection_statuses pinResultsC7 [rowA, rowB]).map
        CollectionRow.repinCid = ["X", ""]) := by
  constructor
  · intro pr rows i r hr hp
    have hmap : (migrate_collection_statuses pr rows)[i]?
        = some (update_asset_status pr r) := by
      unfold migrate_collection_statuses
      rw [List.getElem?_map, hr]
      simp [hp]
    have hM : (migrateMetaRes pr r.imageCid (strTrim r.metadataCid)).success
        = true
        ↔ (strTrim r.metadataCid = "" ∨ strTrim r.metadataCid = r.imageCid ∨
          (lookupPinResult pr (strTrim r.metadataCid)
            "Metadata CID not found in results").success = true) := by
      unfold migrateMetaRes
      by_cases h1 : strTrim r.metadataCid = ""
      · rw [if_pos h1]
        simp [h1]
      · rw [if_neg h1]
        by_cases h2 : strTrim r.metadataCid = r.imageCid
        · rw [if_pos h2]
          simp [h1, h2]
        · rw [if_neg h2]
          simp [h1, h2]
    by_cases hcond : ((migrateImageRes pr r.imageCid).success
        && (migrateMetaRes pr r.imageCid (strTrim r.metadataCid)).success)
        = true
    · have hst : (update_asset_status pr r).status = "completed" := by
        unfold update_asset_status
        rw [if_pos hcond]
      have hrp : (update_asset_status pr r).repinCid = r.imageCid := by
        unfold update_asset_status
        rw [if_pos hcond]
      rcases Bool.and_eq_true_iff.mp hcond with ⟨hI, hMs⟩
      refine ⟨hmap, ?_, fun _ => hrp, fun hne => absurd hst hne⟩
      exact ⟨fun _ => ⟨hI, hM.mp hMs⟩, fun _ => hst⟩
    · have hst : (update_asset_status pr r).status = "failed" := by
        unfold update_asset_status
        rw [if_neg hcond]
      have hnc : (update_asset_status pr r).status ≠ "completed" := by
        rw [hst]
        decide
      have hparts : migrateErrorParts (migrateImageRes pr r.imageCid)
          (migrateMetaRes pr r.imageCid (strTrim r.metadataCid))
          r.imageCid (strTrim r.metadataCid) ≠ [] := by
        unfold migrateErrorParts
        by_cases hI : (migrateImageRes pr r.imageCid).success = true
        · have hMs : ¬ (migrateMetaRes pr r.imageCid
              (strTrim r.metadataCid)).success = true := by
            intro hms
            exact hcond (by rw [hI, hms]; rfl)
          have h1 : strTrim r.metadataCid ≠ "" := by
            intro h
            apply hMs
            unfold migrateMetaRes
            rw [if_pos h]
          have h2 : strTrim r.metadataCid ≠ r.imageCid := by
            intro h
            apply hMs
            unfold migrateMetaRes
            rw [if_neg h1, if_pos h]
          simp [hI, h1, h2, hMs]
        · simp [hI]
      have hmsg : (update_asset_status pr r).errorMessage
          = String.intercalate "; "
              (migrateErrorParts (migrateImageRes pr r.imageCid)
                (migrateMetaRes pr r.imageCid (strTrim r.metadataCid))
                r.imageCid (strTrim r.metadataCid)) := by
        unfold update_asset_status
        rw [if_neg hcond]
        simp only
        rw [if_neg (by
          intro h
          exact hparts (List.isEmpty_iff.mp h))]
      refine ⟨hmap, ?_, fun hcompl => absurd hcompl hnc,
        fun _ => ⟨hst, hparts, hmsg⟩⟩
      constructor
      · intro hcompl
        exact absurd hcompl hnc
      · rintro ⟨hI, hdisj⟩
        exact absurd (show ((migrateImageRes pr r.imageCid).success
            && (migrateMetaRes pr r.imageCid
              (strTrim r.metadataCid)).success) = true
          by rw [hI, hM.mpr hdisj]; rfl) hcond
  · exact ⟨by decide, by decide⟩

theorem migrate_status_reconciliation_witness :
    (migrate_collection_statuses pinResultsC7 [rowA, rowB])[1]?
      = some (update_asset_status pinResultsC7 rowB) :=
  (migrate_status_reconciliation.1 pinResultsC7 [rowA, rowB] 1 rowB
    (by decide) rfl).1

/-- C8: for every duplicated CID of a full report, cleanup keeps exactly
one instance, selected as a minimum of the order status priority
(pinned, queued, pinning, processing, failed, others last), then newest
creation timestamp, then request id; the other instances are exactly the
ones marked deleted. For three instances with statuses failed, pinned,
queued, the pinned one survives and the other two are deleted. -/
theorem cleanup_survivor_selection :
    (∀ (details : List (String × List PinDupInstance))
        (cid : String) (insts : List PinDupInstance),
      (cid, insts) ∈ details → 2 ≤ insts.length →
      ∃ keep deleted,
        cleanupPerCid insts = some (keep, deleted) ∧
        (cid, keep, deleted) ∈ cleanup_duplicate_pins_dry details ∧
        (keep :: deleted).Perm insts ∧
        (∀ x ∈ insts, sortKeyLE keep x)) ∧
    cleanupPerCid [failedInst, pinnedInst, queuedInst]
      = some (pinnedInst, [queuedInst, failedInst]) := by
  constructor
  · intro details cid insts hmem hlen2
    have hperm : (List.insertionSort sortKeyLE insts).Perm insts :=
      List.perm_insertionSort sortKeyLE insts
    have hsorted : List.Sorted sortKeyLE
        (List.insertionSort sortKeyLE insts) :=
      List.sorted_insertionSort sortKeyLE insts
    obtain ⟨keep, rest, hs⟩ :
        ∃ keep rest, List.insertionSort sortKeyLE insts = keep :: rest := by
      cases hq : List.insertionSort sortKeyLE insts with
      | nil =>
        have := hperm.length_eq
        rw [hq] at this
        simp at this
        omega
      | cons a b => exact ⟨a, b, rfl⟩
    have hsel : cleanupPerCid insts = some (keep, rest) := by
      unfold cleanupPerCid
      rw [if_neg (by omega), hs]
    refine ⟨keep, rest, hsel, ?_, ?_, ?_⟩
    · apply List.mem_filterMap.mpr
      exact ⟨(cid, insts), hmem, by rw [hsel]; rfl⟩
    · rw [← hs]
      exact hperm
    · intro x hx
      have hx2 : x ∈ keep :: rest := by
        rw [← hs]
        exact hperm.symm.subset hx
      rcases List.mem_cons.mp hx2 with rfl | hx3
      · exact Or.inr ⟨rfl, Or.inr ⟨rfl, le_refl _⟩⟩
      · rw [hs] at hsorted
        exact List.rel_of_sorted_cons hsorted x hx3
  · decide

theorem cleanup_survivor_selection_witness :
    ∃ keep deleted,
      cleanupPerCid [failedInst, pinnedInst, queuedInst]
        = some (keep, deleted) ∧
      (("Q", keep, deleted)
        ∈ cleanup_duplicate_pins_dry
            [("Q", [failedInst, pinnedInst, queuedInst])]) ∧
      (keep :: deleted).Perm [failedInst, pinnedInst, queuedInst] ∧
      (∀ x ∈ [failedInst, pinnedInst, queuedInst], sortKeyLE keep x) :=
  cleanup_survivor_selection.1 [("Q", [failedInst, pinnedInst, queuedInst])]
    "Q" [failedInst, pinnedInst, queuedInst] (by simp) (by decide)

set_option maxRecDepth 8000 in
/-- C9 counterexample: the Collection Builder stores the detector's
potential_cid value, which is outside the claimed enumeration, for the
asset above. -/
theorem collection_row_standard_counterexample :
    ((create_collection_row (fun _ => false) (fun _ => none)
        (fun _ => none) (fun _ => none) (fun _ => none)
        potentialCidAsset).map CollectionRow.arcStandard
      = some "potential_cid") ∧
    "potential_cid" ∉ (["arc19", "arc69", "standard_ipfs", "image_only",
      "csv_provided", "unknown", "error"] : List String) := by
  exact ⟨by decide, by decide⟩

/-- C9 amended: every record produced by the Collection Builder carries an
arcStandard from the claimed enumeration extended with potential_cid. -/
theorem collection_row_standard_range (arc69Check : String → Bool)
    (arc19Ex arc69Ex : AssetParams → Option String)
    (fetchImageCid : String → Option String)
    (prior : String → Option PriorState)
    (asset : RawAsset) (row : CollectionRow)
    (h : create_collection_row arc69Check arc19Ex arc69Ex fetchImageCid
      prior asset = some row) :
    row.arcStandard ∈ (["arc19", "arc69", "standard_ipfs", "image_only",
      "csv_provided", "unknown", "error", "potential_cid"] : List String)
    := by
  unfold create_collection_row at h
  by_cases hd : asset.deleted = true
  · rw [if_pos hd] at h
    exact absurd h (by simp)
  · rw [if_neg hd] at h
    dsimp only at h
    rcases hex : extract_cid_from_asset arc69Check arc19Ex arc69Ex
        asset.params with _ | mcid
    · rw [hex] at h
      exact absurd h (by simp)
    · rw [hex] at h
      by_cases hm : mcid = ""
      · rw [hm] at h
        exact absurd h (by simp)
      · have harc : row.arcStandard
            = detect_arc_standard arc69Check asset.params := by
          rcases hprior : prior asset.index with _ | st
          · rw [hprior] at h
            simp only [if_neg hm, Option.some.injEq] at h
            rw [← h]
          · rw [hprior] at h
            simp only [if_neg hm, Option.some.injEq] at h
            rw [← h]
        rw [harc]
        have hmem := detect_arc_standard_mem arc69Check asset.params
        simp only [List.mem_cons, List.not_mem_nil, or_false] at hmem ⊢
        tauto

set_option maxRecDepth 8000 in
theorem collection_row_standard_range_witness :
    ipfsWitnessRow.arcStandard
      ∈ (["arc19", "arc69", "standard_ipfs", "image_only",
        "csv_provided", "unknown", "error", "potential_cid"] : List String)
    :=
  collection_row_standard_range (fun _ => false) (fun _ => none)
    (fun _ => none) (fun _ => none) (fun _ => none)
    ipfsWitnessAsset ipfsWitnessRow (by decide)

end CyberRepin
